import Mathlib

/-!
Verification of the outliers package: a bounded max priority queue (maxpq.py),
a ball-partitioning tree with branch-and-bound nearest neighbour search
(balltree.py), and a local outlier factor scorer (local_outlier_factor.py).

Python floats are modelled as exact numbers: the tree construction is stated
over an arbitrary linear ordered field (instantiated at ℚ for executable
checks); the search and the scorer, which take real square roots, are stated
over ℝ.  Numpy arrays are modelled as lists (row major: a data set is a list
of rows).  The heap arrays, whose empty slots hold Python None, are modelled
as lists of Option values.
-/

namespace Outliers

/-- Helper exch from maxpq.py: temp = a[j]; a[j] = a[i]; a[i] = temp.
An out of range read returns the supplied default (the callers of exch only
ever exchange in-range slots). -/
def exch {β : Type} (a : List β) (d : β) (i j : ℕ) : List β :=
  let temp := a.getD j d
  (a.set j (a.getD i d)).set i temp

/-- The max priority queue of maxpq.py.  self.pq and self.indices are Python
lists of length 2k+1 whose unused slots hold None (slot 0 is always None by
convention); self.size counts the populated slots 1..size; self._MAX_SIZE is
the hard capacity 2k. -/
structure MaxPQ (α : Type) where
  size : ℕ
  maxSize : ℕ
  pq : List (Option α)
  indices : List (Option ℕ)

namespace MaxPQ

variable {α : Type} [LinearOrder α]

/-- MaxPQ.__init__(k): size 0, capacity 2k, both arrays of 2k+1 None slots. -/
def mk0 (α : Type) (k : ℕ) : MaxPQ α :=
  ⟨0, 2 * k, List.replicate (2 * k + 1) none, List.replicate (2 * k + 1) none⟩

/-- The comparison a < b on array slots.  In Python comparing None with a
number raises; the queue operations only compare populated slots, so the
value chosen for a None operand (false) is never consulted there. -/
def oLt (a b : Option α) : Bool :=
  match a, b with
  | some x, some y => decide (x < y)
  | _, _ => false

theorem oLt_irrefl (a : Option α) : oLt a a = false := by
  cases a <;> simp [oLt]

/-- MaxPQ._less(i, j): self.pq[i] < self.pq[j]. -/
def less (h : MaxPQ α) (i j : ℕ) : Bool :=
  oLt (h.pq.getD i none) (h.pq.getD j none)

/-- MaxPQ.swim(i): sift the element in slot i up while it is greater than
its parent. -/
def swim (h : MaxPQ α) (i : ℕ) : MaxPQ α :=
  if hc : 1 < i ∧ h.less (i / 2) i then
    swim ⟨h.size, h.maxSize, exch h.pq none i (i / 2), exch h.indices none i (i / 2)⟩ (i / 2)
  else h
termination_by i
decreasing_by exact Nat.div_lt_self (by omega) (by omega)

/-- The child slot that sink(i) compares against: j = 2i, bumped to 2i+1
when that right child exists and is the larger one. -/
def sink_child (h : MaxPQ α) (i : ℕ) : ℕ :=
  if 2 * i < h.size ∧ h.less (2 * i) (2 * i + 1) then 2 * i + 1 else 2 * i

theorem sink_child_spec (h : MaxPQ α) (i : ℕ) (hg : 2 * i ≤ h.size)
    (hl : h.less i (h.sink_child i)) : i < h.sink_child i ∧ h.sink_child i ≤ h.size := by
  rw [sink_child]
  rw [sink_child] at hl
  split_ifs at hl ⊢ with hc
  · omega
  · constructor
    · rcases Nat.eq_zero_or_pos i with hi | hi
      · subst hi
        rw [less, Nat.mul_zero, oLt_irrefl] at hl
        exact absurd hl (by simp)
      · omega
    · omega

/-- MaxPQ.sink(i): sift the element in slot i down while it is smaller than
its larger child. -/
def sink (h : MaxPQ α) (i : ℕ) : MaxPQ α :=
  if hg : 2 * i ≤ h.size then
    if hl : h.less i (h.sink_child i) then
      sink ⟨h.size, h.maxSize, exch h.pq none i (h.sink_child i),
            exch h.indices none i (h.sink_child i)⟩ (h.sink_child i)
    else h
  else h
termination_by h.size + 1 - i
decreasing_by
  have := sink_child_spec h i hg hl
  omega

/-- MaxPQ.insert(value, index).  On success the new element goes into slot
size+1 and swims up.  When the queue is filled to capacity the assertion
fails, the error message is printed, and the state is left unchanged; the
Bool records whether the operation succeeded. -/
def insert (h : MaxPQ α) (v : α) (idx : ℕ) : MaxPQ α × Bool :=
  if h.size < h.maxSize then
    (swim ⟨h.size + 1, h.maxSize,
           h.pq.set (h.size + 1) (some v),
           h.indices.set (h.size + 1) (some idx)⟩ (h.size + 1), true)
  else (h, false)

/-- MaxPQ.remove_top().  On an empty queue the assertion fails, the message
is printed, and the state is unchanged (Bool false).  With one element the
single slot is cleared.  Otherwise the last element moves to slot 1, the
vacated slot becomes None, size decreases, and slot 1 sinks. -/
def remove_top (h : MaxPQ α) : MaxPQ α × Bool :=
  if h.size = 0 then (h, false)
  else if h.size = 1 then
    (⟨0, h.maxSize, h.pq.set 1 none, h.indices.set 1 none⟩, true)
  else
    (sink ⟨h.size - 1, h.maxSize,
           (h.pq.set 1 (h.pq.getD h.size none)).set h.size none,
           (h.indices.set 1 (h.indices.getD h.size none)).set h.size none⟩ 1, true)

/-- MaxPQ.replace_top(value, index): unconditionally overwrite slot 1 and
sink it (the source has no guard here). -/
def replace_top (h : MaxPQ α) (v : α) (idx : ℕ) : MaxPQ α :=
  sink ⟨h.size, h.maxSize, h.pq.set 1 (some v), h.indices.set 1 (some idx)⟩ 1

/-- MaxPQ.top_value(): self.pq[1], which is None when the queue is empty. -/
def top_value (h : MaxPQ α) : Option α :=
  h.pq.getD 1 none

/-- MaxPQ.is_empty(). -/
def is_empty (h : MaxPQ α) : Bool :=
  h.size == 0

/-- The top value as a number.  Python code that compares a distance with
top_value() would raise on an empty queue; every such comparison in find_NN
happens with at least one populated slot, where the default is not consulted. -/
def top_valueD [Inhabited α] (h : MaxPQ α) : α :=
  (h.top_value).getD default

end MaxPQ

section BallTreeDefs

variable {α : Type} [LinearOrderedField α]

/-- np.amax of a one dimensional array.  numpy raises on an empty array; the
default 0 is never consulted because every caller guards non-emptiness. -/
def amax : List α → α
  | [] => 0
  | x :: xs => xs.foldl max x

/-- np.amin of a one dimensional array (same convention as amax). -/
def amin : List α → α
  | [] => 0
  | x :: xs => xs.foldl min x

/-- Column d of a row major array: data[:, d].  A row shorter than d reads
the default 0; numpy arrays are rectangular, so callers never hit it. -/
def col (data : List (List α)) (d : ℕ) : List α :=
  data.map (fun row => row.getD d 0)

/-- np.median: sort, then take the middle element for an odd length and the
average of the two middle elements for an even length. -/
def npMedian (l : List α) : α :=
  let s := List.insertionSort (· ≤ ·) l
  if l.length % 2 = 1 then s.getD (l.length / 2) 0
  else (s.getD (l.length / 2 - 1) 0 + s.getD (l.length / 2) 0) / 2

/-- One step of the get_split scan over axes 1..num_dims-1.  The accumulator
is (d, min_d, max_d, max_range); a strictly greater range wins, so ties keep
the earlier (lower) axis. -/
def get_split_step (data : List (List α)) (acc : ℕ × α × α × α) (i : ℕ) : ℕ × α × α × α :=
  let maxi := amax (col data i)
  let mini := amin (col data i)
  if maxi - mini > acc.2.2.2 then (i, mini, maxi, maxi - mini) else acc

/-- get_split from balltree.py: the axis d whose column has the largest
range, together with the minimum, maximum and median of data[:, d]. -/
def get_split (data : List (List α)) : ℕ × α × α × α :=
  let nd := (data.getD 0 []).length
  let init : ℕ × α × α × α :=
    (0, amin (col data 0), amax (col data 0), amax (col data 0) - amin (col data 0))
  let r := ((List.range nd).drop 1).foldl (get_split_step data) init
  (r.1, r.2.1, r.2.2.1, npMedian (col data r.1))

/-- partition from balltree.py: split the rows (and the matching entries of
indices) into those with data[i, d] < med_d and those with
data[i, d] >= med_d, preserving order.  Returned in the source order
(less_data, greater_data, less_indices, greater_indices). -/
def partition (data : List (List α)) (indices : List ℕ) (d : ℕ) (med_d : α) :
    List (List α) × List (List α) × List ℕ × List ℕ :=
  let z := data.zip indices
  let lessP := z.filter (fun p => decide (p.1.getD d 0 < med_d))
  let geP := z.filter (fun p => !decide (p.1.getD d 0 < med_d))
  (lessP.map Prod.fst, geP.map Prod.fst, lessP.map Prod.snd, geP.map Prod.snd)

/-- The tagged union of the NodeBall and LeafBall classes of balltree.py.
Both variants carry a scalar center and radius; a LeafBall additionally
retains its rows and their row numbers in the original data set. -/
inductive Ball (α : Type) : Type
  | NodeBall (center radius : α) (left right : Ball α)
  | LeafBall (center radius : α) (data : List (List α)) (indices : List ℕ)

/-- The center attribute, shared by both variants. -/
def Ball.center : Ball α → α
  | .NodeBall c _ _ _ => c
  | .LeafBall c _ _ _ => c

/-- The radius attribute, shared by both variants. -/
def Ball.radius : Ball α → α
  | .NodeBall _ r _ _ => r
  | .LeafBall _ r _ _ => r

/-- The concatenation of the indices stored in the leaves, left to right. -/
def Ball.leafIndices : Ball α → List ℕ
  | .NodeBall _ _ l r => l.leafIndices ++ r.leafIndices
  | .LeafBall _ _ _ idx => idx

/-- dist_squared(x, y) = np.dot(x - y, x - y) for two vectors of the same
dimension. -/
def dist_squared (x y : List α) : α :=
  ((x.zip y).map (fun p => (p.1 - p.2) ^ 2)).sum

/-- dist_squared(x, c) when c is a scalar: numpy broadcasts c along every
axis of x, giving the sum over axes of (x_a - c)^2. -/
def dist_squared_bcast (x : List α) (c : α) : α :=
  (x.map (fun a => (a - c) ^ 2)).sum

theorem foldl_min_mem (xs : List α) : ∀ x : α, xs.foldl min x ∈ x :: xs := by
  induction xs with
  | nil => intro x; simp
  | cons y ys ih =>
    intro x
    show List.foldl min (min x y) ys ∈ x :: y :: ys
    rcases List.mem_cons.mp (ih (min x y)) with h1 | h1
    · rcases min_choice x y with hm | hm <;> rw [h1, hm] <;> simp
    · simp [h1]

theorem seed_le_foldl_max (xs : List α) : ∀ x : α, x ≤ xs.foldl max x := by
  induction xs with
  | nil => intro x; simp
  | cons y ys ih => intro x; exact le_trans (le_max_left x y) (ih (max x y))

theorem foldl_min_le_seed (xs : List α) : ∀ x : α, xs.foldl min x ≤ x := by
  induction xs with
  | nil => intro x; simp
  | cons y ys ih => intro x; exact le_trans (ih (min x y)) (min_le_left x y)

theorem le_foldl_max (xs : List α) : ∀ x a : α, a ∈ x :: xs → a ≤ xs.foldl max x := by
  induction xs with
  | nil =>
    intro x a ha
    rw [List.mem_singleton] at ha
    simp [ha]
  | cons y ys ih =>
    intro x a ha
    show a ≤ List.foldl max (max x y) ys
    rcases List.mem_cons.mp ha with rfl | ha2
    · exact le_trans (le_max_left a y) (seed_le_foldl_max ys (max a y))
    · rcases List.mem_cons.mp ha2 with rfl | ha3
      · exact le_trans (le_max_right x a) (seed_le_foldl_max ys (max x a))
      · exact ih (max x y) a (List.mem_cons_of_mem _ ha3)

theorem foldl_min_le (xs : List α) : ∀ x a : α, a ∈ x :: xs → xs.foldl min x ≤ a := by
  induction xs with
  | nil =>
    intro x a ha
    rw [List.mem_singleton] at ha
    simp [ha]
  | cons y ys ih =>
    intro x a ha
    show List.foldl min (min x y) ys ≤ a
    rcases List.mem_cons.mp ha with rfl | ha2
    · exact le_trans (foldl_min_le_seed ys (min a y)) (min_le_left a y)
    · rcases List.mem_cons.mp ha2 with rfl | ha3
      · exact le_trans (foldl_min_le_seed ys (min x a)) (min_le_right x a)
      · exact ih (min x y) a (List.mem_cons_of_mem _ ha3)

theorem amin_mem {l : List α} (h : l ≠ []) : amin l ∈ l := by
  match l, h with
  | x :: xs, _ => exact foldl_min_mem xs x

theorem le_amax {l : List α} {a : α} (h : a ∈ l) : a ≤ amax l := by
  match l, h with
  | x :: xs, h => exact le_foldl_max xs x a h

theorem amin_le {l : List α} {a : α} (h : a ∈ l) : amin l ≤ a := by
  match l, h with
  | x :: xs, h => exact foldl_min_le xs x a h

theorem amin_le_amax {l : List α} (h : l ≠ []) : amin l ≤ amax l :=
  le_trans (amin_le (amin_mem h)) (le_amax (amin_mem h))

/-- The median of a non-empty list does not exceed its upper middle element,
which belongs to the list. -/
theorem npMedian_le_mem {l : List α} (h : l ≠ []) : ∃ x ∈ l, npMedian l ≤ x := by
  set s := List.insertionSort (· ≤ ·) l with hs
  have hperm : s.Perm l := List.perm_insertionSort _ l
  have hsort : List.Sorted (· ≤ ·) s := List.sorted_insertionSort _ l
  have hlen : s.length = l.length := hperm.length_eq
  have hpos : 0 < l.length := List.length_pos.mpr h
  have hm : l.length / 2 < s.length := by rw [hlen]; omega
  refine ⟨s.getD (l.length / 2) 0, ?_, ?_⟩
  · rw [List.getD_eq_getElem s 0 hm]
    exact hperm.subset (List.getElem_mem hm)
  · rw [npMedian]
    split
    · exact le_refl _
    · have h2 : l.length % 2 = 0 := by omega
      have hge2 : 2 ≤ l.length := by omega
      have h1 : l.length / 2 - 1 < l.length / 2 := by omega
      have hle : s.getD (l.length / 2 - 1) 0 ≤ s.getD (l.length / 2) 0 := by
        rw [List.getD_eq_getElem s 0 (by omega : l.length / 2 - 1 < s.length),
            List.getD_eq_getElem s 0 hm]
        exact List.pairwise_iff_getElem.mp hsort _ _ _ _ h1
      linarith

/-- A non-empty column contains a row value equal to its minimum. -/
theorem exists_row_amin {data : List (List α)} (h : data ≠ []) (d : ℕ) :
    ∃ row ∈ data, row.getD d 0 = amin (col data d) := by
  have hc : col data d ≠ [] := by
    simp only [col, ne_eq, List.map_eq_nil_iff]
    exact h
  have := amin_mem hc
  rw [col] at this
  rcases List.mem_map.mp this with ⟨row, hrow, heq⟩
  exact ⟨row, hrow, heq⟩

/-- A non-empty data set contains a row whose axis d value is at least the
median of column d. -/
theorem exists_row_ge_median {data : List (List α)} (h : data ≠ []) (d : ℕ) :
    ∃ row ∈ data, npMedian (col data d) ≤ row.getD d 0 := by
  have hc : col data d ≠ [] := by
    simp only [col, ne_eq, List.map_eq_nil_iff]
    exact h
  rcases npMedian_le_mem hc with ⟨x, hx, hle⟩
  rw [col] at hx
  rcases List.mem_map.mp hx with ⟨row, hrow, heq⟩
  exact ⟨row, hrow, heq ▸ hle⟩

/-- A simple foldl invariance principle. -/
theorem foldl_invariant {β γ : Type} (P : γ → Prop) (f : γ → β → γ) (l : List β)
    (init : γ) (h0 : P init) (hstep : ∀ acc b, P acc → P (f acc b)) :
    P (l.foldl f init) := by
  induction l generalizing init with
  | nil => exact h0
  | cons b bs ih => exact ih (f init b) (hstep init b h0)

/-- The get_split scan returns the true minimum and maximum of the column it
selects, and its median is that of the selected column. -/
theorem get_split_char (data : List (List α)) :
    (get_split data).2.1 = amin (col data (get_split data).1) ∧
    (get_split data).2.2.1 = amax (col data (get_split data).1) ∧
    (get_split data).2.2.2 = npMedian (col data (get_split data).1) := by
  have key : ∀ r : ℕ × α × α × α,
      r = ((List.range ((data.getD 0 []).length)).drop 1).foldl (get_split_step data)
            (0, amin (col data 0), amax (col data 0), amax (col data 0) - amin (col data 0)) →
      r.2.1 = amin (col data r.1) ∧ r.2.2.1 = amax (col data r.1) := by
    intro r hr
    subst hr
    refine foldl_invariant
      (fun acc : ℕ × α × α × α => acc.2.1 = amin (col data acc.1) ∧ acc.2.2.1 = amax (col data acc.1))
      _ _ _ ⟨rfl, rfl⟩ ?_
    intro acc b hacc
    simp only [get_split_step]
    split
    · exact ⟨rfl, rfl⟩
    · exact hacc
  have h := key _ rfl
  exact ⟨h.1, h.2, rfl⟩

/-- Each half of a partition at the median of the selected column is
strictly shorter than the data, provided the minimum is strictly below the
median. -/
theorem partition_lengths_lt (data : List (List α)) (indices : List ℕ) (d : ℕ)
    (hlt : amin (col data d) < npMedian (col data d)) :
    ((partition data indices d (npMedian (col data d))).1).length < data.length ∧
    ((partition data indices d (npMedian (col data d))).2.1).length < data.length := by
  have hne : data ≠ [] := by
    rintro rfl
    simp [col, amin, npMedian] at hlt
  have hzlen : (data.zip indices).length = min data.length indices.length :=
    List.length_zip data indices
  have hfilters :
      (List.filter (fun p => decide (p.1.getD d 0 < npMedian (col data d))) (data.zip indices)).length +
      (List.filter (fun p => !decide (p.1.getD d 0 < npMedian (col data d))) (data.zip indices)).length
      = (data.zip indices).length := by
    have := (List.filter_append_perm
      (fun p : List α × ℕ => decide (p.1.getD d 0 < npMedian (col data d))) (data.zip indices)).length_eq
    simpa [List.length_append] using this
  have hp1 : (partition data indices d (npMedian (col data d))).1.length =
      (List.filter (fun p => decide (p.1.getD d 0 < npMedian (col data d))) (data.zip indices)).length := by
    simp [partition]
  have hp2 : (partition data indices d (npMedian (col data d))).2.1.length =
      (List.filter (fun p => !decide (p.1.getD d 0 < npMedian (col data d))) (data.zip indices)).length := by
    simp [partition]
  rcases Nat.lt_or_ge indices.length data.length with hcase | hcase
  · have hb1 := List.length_filter_le
      (fun p : List α × ℕ => decide (p.1.getD d 0 < npMedian (col data d))) (data.zip indices)
    have hb2 := List.length_filter_le
      (fun p : List α × ℕ => !decide (p.1.getD d 0 < npMedian (col data d))) (data.zip indices)
    constructor
    · rw [hp1]; omega
    · rw [hp2]; omega
  · have hmapfst : (data.zip indices).map Prod.fst = data := List.map_fst_zip data indices hcase
    have hlessne : 0 < (List.filter
        (fun p => decide (p.1.getD d 0 < npMedian (col data d))) (data.zip indices)).length := by
      rcases exists_row_amin hne d with ⟨row, hrow, hval⟩
      rw [← hmapfst] at hrow
      rcases List.mem_map.mp hrow with ⟨p, hp, hpeq⟩
      exact List.length_pos.mpr (List.ne_nil_of_mem (List.mem_filter.mpr
        ⟨hp, by rw [hpeq, hval]; exact decide_eq_true hlt⟩))
    have hgene : 0 < (List.filter
        (fun p => !decide (p.1.getD d 0 < npMedian (col data d))) (data.zip indices)).length := by
      rcases exists_row_ge_median hne d with ⟨row, hrow, hval⟩
      rw [← hmapfst] at hrow
      rcases List.mem_map.mp hrow with ⟨p, hp, hpeq⟩
      exact List.length_pos.mpr (List.ne_nil_of_mem (List.mem_filter.mpr
        ⟨hp, by rw [hpeq]; simpa using hval⟩))
    constructor
    · rw [hp1]; omega
    · rw [hp2]; omega

/-- build_ball_tree from balltree.py.  The center is min_d + (max_d -
min_d)/2 and the radius is np.sqrt(dist_squared(min_d, center)), the square
root of the scalar square (min_d - center)^2, that is |min_d - center|
exactly (theorem sqrt_sq_abs below ties this to Real.sqrt).  The node is a
leaf when min_d >= med_d, otherwise the rows are partitioned at the median
and both halves are built recursively. -/
def build_ball_tree (data : List (List α)) (indices : List ℕ) : Ball α :=
  let s := get_split data
  let center := s.2.1 + (s.2.2.1 - s.2.1) / 2
  let radius := |s.2.1 - center|
  if hdeg : s.2.2.2 ≤ s.2.1 then .LeafBall center radius data indices
  else
    let p := partition data indices s.1 s.2.2.2
    .NodeBall center radius (build_ball_tree p.1 p.2.2.1) (build_ball_tree p.2.1 p.2.2.2)
termination_by data.length
decreasing_by
  · have hchar := get_split_char data
    have hlt := not_le.mp hdeg
    rw [hchar.1, hchar.2.2] at hlt
    have := (partition_lengths_lt data indices (get_split data).1 hlt).1
    rw [hchar.2.2]
    exact this
  · have hchar := get_split_char data
    have hlt := not_le.mp hdeg
    rw [hchar.1, hchar.2.2] at hlt
    have := (partition_lengths_lt data indices (get_split data).1 hlt).2
    rw [hchar.2.2]
    exact this

end BallTreeDefs

section SizeLemmas

variable {α : Type} [LinearOrder α]

theorem swim_size (i : ℕ) : ∀ q : MaxPQ α, (q.swim i).size = q.size ∧ (q.swim i).maxSize = q.maxSize := by
  induction i using Nat.strong_induction_on with
  | _ i ih =>
    intro q
    rw [MaxPQ.swim]
    split
    · next hc => exact ih (i / 2) (Nat.div_lt_self (by omega) (by omega)) _
    · exact ⟨rfl, rfl⟩

theorem sink_size : ∀ (q : MaxPQ α) (i : ℕ), (q.sink i).size = q.size ∧ (q.sink i).maxSize = q.maxSize := by
  intro q i
  induction q, i using MaxPQ.sink.induct with
  | case1 q i hg hl ih =>
    rw [MaxPQ.sink, dif_pos hg, dif_pos hl]
    exact ih
  | case2 q i hg hl =>
    rw [MaxPQ.sink, dif_pos hg, dif_neg hl]
    exact ⟨rfl, rfl⟩
  | case3 q i hg =>
    rw [MaxPQ.sink, dif_neg hg]
    exact ⟨rfl, rfl⟩

theorem insert_size (q : MaxPQ α) (v : α) (idx : ℕ) :
    (q.insert v idx).1.size = (if q.size < q.maxSize then q.size + 1 else q.size) ∧
    (q.insert v idx).1.maxSize = q.maxSize := by
  rw [MaxPQ.insert]
  split
  · next hc => simpa using swim_size (q.size + 1) _
  · next hc => exact ⟨rfl, rfl⟩

theorem remove_top_size (q : MaxPQ α) :
    (q.remove_top).1.size = q.size - 1 ∧ (q.remove_top).1.maxSize = q.maxSize := by
  rw [MaxPQ.remove_top]
  split
  · next hc => simp [hc]
  · next hc =>
    split
    · next hc1 => simp [hc1]
    · next hc1 =>
      exact sink_size _ 1

theorem replace_top_size (q : MaxPQ α) (v : α) (idx : ℕ) :
    (q.replace_top v idx).size = q.size ∧ (q.replace_top v idx).maxSize = q.maxSize := by
  rw [MaxPQ.replace_top]
  exact sink_size _ 1

end SizeLemmas

section FindNNDefs

/-- The while loop in the leaf case of find_NN: while dist_sq_y is below the
top value and the queue holds more than k elements, remove the top. -/
noncomputable def shrink_loop (k : ℕ) (dist_sq_y : ℝ) (q : MaxPQ ℝ) : MaxPQ ℝ :=
  if hc : dist_sq_y < q.top_valueD ∧ k < q.size then shrink_loop k dist_sq_y (q.remove_top).1
  else q
termination_by q.size
decreasing_by
  have := (remove_top_size q).1
  omega

/-- One iteration of the leaf loop of find_NN, processing the pair (j, y):
skip when the squared distance exceeds the top value; skip when j is the
excluded index or already among the stored indices (the Python membership
test scans the whole indices list, whose unused slots hold None); otherwise
shrink while above k with a closer candidate, then replace the top
(strictly closer), insert (exact tie), or do nothing. -/
noncomputable def processPoint (k : ℕ) (x : List ℝ) (x_index : Option ℕ)
    (q : MaxPQ ℝ) (jy : ℕ × List ℝ) : MaxPQ ℝ :=
  let dist_sq_y := dist_squared x jy.2
  if dist_sq_y > q.top_valueD then q
  else if some jy.1 ≠ x_index ∧ some jy.1 ∉ q.indices then
    let q1 := shrink_loop k dist_sq_y q
    if dist_sq_y < q1.top_valueD then q1.replace_top dist_sq_y jy.1
    else if dist_sq_y = q1.top_valueD then (q1.insert dist_sq_y jy.1).1
    else q1
  else q

/-- find_NN from balltree.py.  At a LeafBall every (index, point) pair of
zip(ball.indices, ball.data) is processed in order.  At a NodeBall the child
proxy distances are np.sqrt(dist_squared(x, child.center)) - child.radius
(center is a scalar, so dist_squared broadcasts it along every axis of x);
the child with the smaller proxy distance is searched first, and afterwards
the other child is searched unless its proxy distance squared exceeds the
current top value. -/
noncomputable def find_NN (x : List ℝ) (k : ℕ) (ball : Ball ℝ) (q : MaxPQ ℝ)
    (x_index : Option ℕ) : MaxPQ ℝ :=
  match ball with
  | .LeafBall _ _ data indices => (indices.zip data).foldl (processPoint k x x_index) q
  | .NodeBall _ _ left right =>
    let L_dist := Real.sqrt (dist_squared_bcast x left.center) - left.radius
    let R_dist := Real.sqrt (dist_squared_bcast x right.center) - right.radius
    if L_dist < R_dist then
      let q1 := find_NN x k left q x_index
      if R_dist ^ 2 > q1.top_valueD then q1
      else find_NN x k right q1 x_index
    else
      let q1 := find_NN x k right q x_index
      if L_dist ^ 2 > q1.top_valueD then q1
      else find_NN x k left q1 x_index

end FindNNDefs

section LOFDefs

/-- The mutable attributes of a LocalOutlierFactor object: _ball_tree and
data, both None before the first successful fit. -/
structure LOFState where
  ball_tree : Option (Ball ℝ)
  data : Option (List (List ℝ))

/-- The shapes the Python argument X of fit can take: None, a value of a
non-ndarray type, a zero dimensional array (such as np.array(5.0), whose
shape is the empty tuple), a one dimensional array, or a two dimensional
array.  An ndarray of three or more dimensions is outside this embedding:
on such an input the real fit passes both shape asserts and assigns
self.data = X before any failure, and the three dimensional value stored
there does not fit the two dimensional data field of LOFState (see the
commentary on fit below). -/
inductive PyInput : Type
  | null : PyInput
  | notArray : PyInput
  | arr0d (v : ℝ) : PyInput
  | arr1d (v : List ℝ) : PyInput
  | arr2d (m : List (List ℝ)) : PyInput

/-- How a call to fit terminates: a normal return after fitting (ok); an
AssertionError raised by one of the guards and caught by the except block,
the message printed and the state untouched (caught); or an exception of a
type other than AssertionError propagating out of the method (escaped). -/
inductive FitExit : Type
  | ok : FitExit
  | caught : FitExit
  | escaped : FitExit

/-- LocalOutlierFactor.fit(X).  The assertions (X is not None, X is an
ndarray, X non-empty in both dimensions after reshaping a 1-D input to a
column) are checked before self.data and self._ball_tree are assigned; on
an assertion failure the message is printed and the state is left
unchanged.  On a 0-d array the reshape test len(X.shape) == 1 is false and
the first shape assert then evaluates X.shape[0] on the empty shape tuple,
raising an IndexError that the except AssertionError handler does not
catch: the exception escapes fit, the state still untouched because the
failing expression precedes the assignments.  (On an array of three or
more dimensions, not modelled here, both shape asserts pass and self.data
is overwritten with the input before build_ball_tree either returns a
degenerate one-leaf tree on constant data or lets a ValueError escape from
the elementwise comparison in partition, stranding the old tree next to
the new data.) -/
noncomputable def fit (st : LOFState) (X : PyInput) : LOFState × FitExit :=
  match X with
  | .null => (st, .caught)
  | .notArray => (st, .caught)
  | .arr0d _ => (st, .escaped)
  | .arr1d v =>
    let X2 := v.map (fun a => [a])
    if 0 < X2.length ∧ 0 < (X2.getD 0 []).length then
      (⟨some (build_ball_tree X2 (List.range X2.length)), some X2⟩, .ok)
    else (st, .caught)
  | .arr2d m =>
    if 0 < m.length ∧ 0 < (m.getD 0 []).length then
      (⟨some (build_ball_tree m (List.range m.length)), some m⟩, .ok)
    else (st, .caught)

/-- The seeding loop of get_neighborhood and get_LOF: create MaxPQ(k) and
load it with the sampled indices (random.sample draws k distinct members of
range(n) without i; the sample is passed explicitly here), inserting the
squared distance from point i to each sampled point. -/
noncomputable def seed_pq (X : List (List ℝ)) (i k : ℕ) (sample : List ℕ) : MaxPQ ℝ :=
  sample.foldl (fun q j => (q.insert (dist_squared (X.getD i []) (X.getD j [])) j).1)
    (MaxPQ.mk0 ℝ k)

/-- The queue state after the nearest neighbour search for query index i:
find_NN on point i over the tree, from the seeded queue, excluding i. -/
noncomputable def search_pq (X : List (List ℝ)) (tree : Ball ℝ) (i k : ℕ)
    (sample : List ℕ) : MaxPQ ℝ :=
  find_NN (X.getD i []) k tree (seed_pq X i k sample) (some i)

/-- The body shared by get_neighborhood and the first pass of get_LOF for a
query index i: seed the queue, run find_NN excluding i, then read the
populated slots: neighbors = indices[1:size+1] and distances =
np.sqrt(pq[1:size+1]). -/
noncomputable def neighborhood_core (X : List (List ℝ)) (tree : Ball ℝ) (i k : ℕ)
    (sample : List ℕ) : List ℕ × List ℝ :=
  let q := search_pq X tree i k sample
  (((q.indices.drop 1).take q.size).map (fun o => o.getD 0),
   ((q.pq.drop 1).take q.size).map (fun o => Real.sqrt (o.getD 0)))

/-- LocalOutlierFactor.get_neighborhood(i, k).  The assertions (fitted,
0 < k < N, 0 <= i < N) are checked before any computation; on failure the
messages are printed and None is returned, and in every case the object
state is untouched.  i and k are integers so the sign checks are faithful. -/
noncomputable def get_neighborhood (st : LOFState) (i k : ℤ) (sample : List ℕ) :
    LOFState × Option (List ℕ × List ℝ) :=
  match st.ball_tree, st.data with
  | some tree, some X =>
    if 0 < k ∧ k < (X.length : ℤ) ∧ 0 ≤ i ∧ i < (X.length : ℤ) then
      (st, some (neighborhood_core X tree i.toNat k.toNat sample))
    else (st, none)
  | _, _ => (st, none)

/-- Pass 1 of get_LOF: the neighborhood of every point (one sample list per
point). -/
noncomputable def lof_pass1 (X : List (List ℝ)) (tree : Ball ℝ) (k : ℕ)
    (samples : List (List ℕ)) : List (List ℕ) × List (List ℝ) :=
  let nbds := (List.range X.length).map
    (fun i => neighborhood_core X tree i k (samples.getD i []))
  (nbds.map Prod.fst, nbds.map Prod.snd)

/-- Pass 2 of get_LOF: the local reachability density of every point,
len(neighbors[i]) / (sum over (count, j) in enumerate(neighbors[i]) of
max(distances[j][0], distances[i][count])). -/
noncomputable def lof_pass2 (neighbors : List (List ℕ)) (distances : List (List ℝ))
    (n : ℕ) : List ℝ :=
  (List.range n).map (fun i =>
    ((neighbors.getD i []).length : ℝ) /
      (((neighbors.getD i []).enum.map (fun cj =>
        max ((distances.getD cj.2 []).getD 0 0) ((distances.getD i []).getD cj.1 0))).sum))

/-- Pass 3 of get_LOF: the local outlier factor of every point,
(sum of lrd over the neighbors of i) / lrd[i] / len(neighbors[i]). -/
noncomputable def lof_pass3 (neighbors : List (List ℕ)) (lrd : List ℝ) (n : ℕ) : List ℝ :=
  (List.range n).map (fun i =>
    (((neighbors.getD i []).map (fun j => lrd.getD j 0)).sum / lrd.getD i 0) /
      ((neighbors.getD i []).length : ℝ))

/-- LocalOutlierFactor.get_LOF(k): the assertions of the source, then the
three passes. -/
noncomputable def get_LOF (st : LOFState) (k : ℤ) (samples : List (List ℕ)) :
    LOFState × Option (List ℝ) :=
  match st.ball_tree, st.data with
  | some tree, some X =>
    if 0 < k ∧ k < (X.length : ℤ) then
      let p := lof_pass1 X tree k.toNat samples
      let lrd := lof_pass2 p.1 p.2 X.length
      (st, some (lof_pass3 p.1 lrd X.length))
    else (st, none)
  | _, _ => (st, none)

end LOFDefs

section PartitionFacts

variable {α : Type} [LinearOrderedField α]

/-- When the minimum of the split column is strictly below its median, both
halves of the partition at the median are non-empty (the row attaining the
minimum falls in the strict-less half; a row at or above the median exists
because the median does not exceed the maximum). -/
theorem partition_parts_pos (data : List (List α)) (indices : List ℕ) (d : ℕ)
    (hlen : data.length ≤ indices.length) (hne : data ≠ [])
    (hlt : amin (col data d) < npMedian (col data d)) :
    0 < (partition data indices d (npMedian (col data d))).1.length ∧
    0 < (partition data indices d (npMedian (col data d))).2.1.length := by
  have hmapfst : (data.zip indices).map Prod.fst = data := List.map_fst_zip data indices hlen
  have hp1 : (partition data indices d (npMedian (col data d))).1.length =
      (List.filter (fun p => decide (p.1.getD d 0 < npMedian (col data d))) (data.zip indices)).length := by
    simp [partition]
  have hp2 : (partition data indices d (npMedian (col data d))).2.1.length =
      (List.filter (fun p => !decide (p.1.getD d 0 < npMedian (col data d))) (data.zip indices)).length := by
    simp [partition]
  constructor
  · rw [hp1]
    rcases exists_row_amin hne d with ⟨row, hrow, hval⟩
    rw [← hmapfst] at hrow
    rcases List.mem_map.mp hrow with ⟨p, hp, hpeq⟩
    exact List.length_pos.mpr (List.ne_nil_of_mem (List.mem_filter.mpr
      ⟨hp, by rw [hpeq, hval]; exact decide_eq_true hlt⟩))
  · rw [hp2]
    rcases exists_row_ge_median hne d with ⟨row, hrow, hval⟩
    rw [← hmapfst] at hrow
    rcases List.mem_map.mp hrow with ⟨p, hp, hpeq⟩
    exact List.length_pos.mpr (List.ne_nil_of_mem (List.mem_filter.mpr
      ⟨hp, by rw [hpeq]; simpa using hval⟩))

end PartitionFacts

section ClaimC7

/-- C7: calling insert on a MaxPQ whose size equals its fixed capacity (2k
for a queue built by the constructor) reports a failure and leaves pq,
indices and size completely unchanged; calling remove_top on an empty queue
likewise reports a failure and leaves the queue unchanged.  Both operations
are total functions in this model (the Python assertion error is caught
inside the method, printed, and never propagates), returning the untouched
state together with the failure flag false. -/
theorem C7_full_insert_empty_remove_unchanged {α : Type} [LinearOrder α] (k : ℕ)
    (q r : MaxPQ α) (v : α) (idx : ℕ)
    (hq : q.size = q.maxSize) (hr : r.size = 0) :
    (MaxPQ.mk0 α k).maxSize = 2 * k ∧
    q.insert v idx = (q, false) ∧
    r.remove_top = (r, false) := by
  refine ⟨rfl, ?_, ?_⟩
  · rw [MaxPQ.insert, if_neg (by omega)]
  · rw [MaxPQ.remove_top, if_pos hr]

/-- Witness for C7: a concrete full queue of capacity 2 and the fresh empty
queue of capacity 2. -/
theorem C7_full_insert_empty_remove_unchanged_witness :
    (⟨2, 2, [none, some (3 : ℚ), some 1], [none, some 5, some 6]⟩ : MaxPQ ℚ).size =
      (⟨2, 2, [none, some (3 : ℚ), some 1], [none, some 5, some 6]⟩ : MaxPQ ℚ).maxSize ∧
    (MaxPQ.mk0 ℚ 1).size = 0 ∧
    ((MaxPQ.mk0 ℚ 1).maxSize = 2 * 1 ∧
     (⟨2, 2, [none, some (3 : ℚ), some 1], [none, some 5, some 6]⟩ : MaxPQ ℚ).insert 7 9 =
       ((⟨2, 2, [none, some (3 : ℚ), some 1], [none, some 5, some 6]⟩ : MaxPQ ℚ), false) ∧
     (MaxPQ.mk0 ℚ 1).remove_top = (MaxPQ.mk0 ℚ 1, false)) :=
  ⟨rfl, rfl, C7_full_insert_empty_remove_unchanged 1 _ _ 7 9 rfl rfl⟩

end ClaimC7

section ClaimC9

/-- C9: build_ball_tree terminates on every finite non-empty input.  When
min_d < med_d along the chosen split axis, the partition places at least
one point in each half, so both recursive calls receive strictly smaller
subsets (and the function recurses exactly on those two halves); when
min_d >= med_d a leaf holding the data verbatim is emitted immediately.
(That the recursion is well founded is certified by build_ball_tree being
accepted as a total function with measure data.length.) -/
theorem C9_build_terminates {α : Type} [LinearOrderedField α]
    (data : List (List α)) (indices : List ℕ)
    (hne : data ≠ []) (hlen : data.length = indices.length) :
    ((get_split data).2.1 < (get_split data).2.2.2 →
      0 < (partition data indices (get_split data).1 (get_split data).2.2.2).1.length ∧
      0 < (partition data indices (get_split data).1 (get_split data).2.2.2).2.1.length ∧
      (partition data indices (get_split data).1 (get_split data).2.2.2).1.length < data.length ∧
      (partition data indices (get_split data).1 (get_split data).2.2.2).2.1.length < data.length ∧
      build_ball_tree data indices = Ball.NodeBall
        ((get_split data).2.1 + ((get_split data).2.2.1 - (get_split data).2.1) / 2)
        |(get_split data).2.1 - ((get_split data).2.1 + ((get_split data).2.2.1 - (get_split data).2.1) / 2)|
        (build_ball_tree (partition data indices (get_split data).1 (get_split data).2.2.2).1
          (partition data indices (get_split data).1 (get_split data).2.2.2).2.2.1)
        (build_ball_tree (partition data indices (get_split data).1 (get_split data).2.2.2).2.1
          (partition data indices (get_split data).1 (get_split data).2.2.2).2.2.2)) ∧
    ((get_split data).2.2.2 ≤ (get_split data).2.1 →
      build_ball_tree data indices = Ball.LeafBall
        ((get_split data).2.1 + ((get_split data).2.2.1 - (get_split data).2.1) / 2)
        |(get_split data).2.1 - ((get_split data).2.1 + ((get_split data).2.2.1 - (get_split data).2.1) / 2)|
        data indices) := by
  have hchar := get_split_char data
  constructor
  · intro hlt
    have hlt2 : amin (col data (get_split data).1) < npMedian (col data (get_split data).1) := by
      rw [← hchar.1, ← hchar.2.2]
      exact hlt
    have hpos := partition_parts_pos data indices (get_split data).1 (le_of_eq hlen) hne hlt2
    have hlens := partition_lengths_lt data indices (get_split data).1 hlt2
    rw [← hchar.2.2] at hpos hlens
    refine ⟨hpos.1, hpos.2, hlens.1, hlens.2, ?_⟩
    rw [build_ball_tree]
    simp only [dif_neg (not_le.mpr hlt)]
  · intro hge
    rw [build_ball_tree]
    simp only [dif_pos hge]

/-- Witness for C9 on the concrete one dimensional data set
[[0], [2], [1]]. -/
theorem C9_build_terminates_witness :
    ([[(0 : ℚ)], [2], [1]] ≠ ([] : List (List ℚ)) ∧
      ([[(0 : ℚ)], [2], [1]] : List (List ℚ)).length = [7, 8, 9].length) ∧
    (((get_split [[(0 : ℚ)], [2], [1]]).2.1 < (get_split [[(0 : ℚ)], [2], [1]]).2.2.2 →
      0 < (partition [[(0 : ℚ)], [2], [1]] [7, 8, 9] (get_split [[(0 : ℚ)], [2], [1]]).1
            (get_split [[(0 : ℚ)], [2], [1]]).2.2.2).1.length ∧
      0 < (partition [[(0 : ℚ)], [2], [1]] [7, 8, 9] (get_split [[(0 : ℚ)], [2], [1]]).1
            (get_split [[(0 : ℚ)], [2], [1]]).2.2.2).2.1.length ∧
      (partition [[(0 : ℚ)], [2], [1]] [7, 8, 9] (get_split [[(0 : ℚ)], [2], [1]]).1
            (get_split [[(0 : ℚ)], [2], [1]]).2.2.2).1.length < ([[(0 : ℚ)], [2], [1]] : List (List ℚ)).length ∧
      (partition [[(0 : ℚ)], [2], [1]] [7, 8, 9] (get_split [[(0 : ℚ)], [2], [1]]).1
            (get_split [[(0 : ℚ)], [2], [1]]).2.2.2).2.1.length < ([[(0 : ℚ)], [2], [1]] : List (List ℚ)).length ∧
      build_ball_tree [[(0 : ℚ)], [2], [1]] [7, 8, 9] = Ball.NodeBall
        ((get_split [[(0 : ℚ)], [2], [1]]).2.1 +
          ((get_split [[(0 : ℚ)], [2], [1]]).2.2.1 - (get_split [[(0 : ℚ)], [2], [1]]).2.1) / 2)
        |(get_split [[(0 : ℚ)], [2], [1]]).2.1 - ((get_split [[(0 : ℚ)], [2], [1]]).2.1 +
          ((get_split [[(0 : ℚ)], [2], [1]]).2.2.1 - (get_split [[(0 : ℚ)], [2], [1]]).2.1) / 2)|
        (build_ball_tree (partition [[(0 : ℚ)], [2], [1]] [7, 8, 9] (get_split [[(0 : ℚ)], [2], [1]]).1
            (get_split [[(0 : ℚ)], [2], [1]]).2.2.2).1
          (partition [[(0 : ℚ)], [2], [1]] [7, 8, 9] (get_split [[(0 : ℚ)], [2], [1]]).1
            (get_split [[(0 : ℚ)], [2], [1]]).2.2.2).2.2.1)
        (build_ball_tree (partition [[(0 : ℚ)], [2], [1]] [7, 8, 9] (get_split [[(0 : ℚ)], [2], [1]]).1
            (get_split [[(0 : ℚ)], [2], [1]]).2.2.2).2.1
          (partition [[(0 : ℚ)], [2], [1]] [7, 8, 9] (get_split [[(0 : ℚ)], [2], [1]]).1
            (get_split [[(0 : ℚ)], [2], [1]]).2.2.2).2.2.2)) ∧
    ((get_split [[(0 : ℚ)], [2], [1]]).2.2.2 ≤ (get_split [[(0 : ℚ)], [2], [1]]).2.1 →
      build_ball_tree [[(0 : ℚ)], [2], [1]] [7, 8, 9] = Ball.LeafBall
        ((get_split [[(0 : ℚ)], [2], [1]]).2.1 +
          ((get_split [[(0 : ℚ)], [2], [1]]).2.2.1 - (get_split [[(0 : ℚ)], [2], [1]]).2.1) / 2)
        |(get_split [[(0 : ℚ)], [2], [1]]).2.1 - ((get_split [[(0 : ℚ)], [2], [1]]).2.1 +
          ((get_split [[(0 : ℚ)], [2], [1]]).2.2.1 - (get_split [[(0 : ℚ)], [2], [1]]).2.1) / 2)|
        [[(0 : ℚ)], [2], [1]] [7, 8, 9])) :=
  ⟨⟨by simp, rfl⟩, C9_build_terminates [[(0 : ℚ)], [2], [1]] [7, 8, 9] (by simp) rfl⟩

end ClaimC9

section ClaimC1

/-- Every leaf index of a built tree comes from the supplied index list,
exactly once each: the leaves partition the indices. -/
theorem build_leafIndices_perm {α : Type} [LinearOrderedField α] :
    ∀ (data : List (List α)) (indices : List ℕ), data.length = indices.length →
      ((build_ball_tree data indices).leafIndices).Perm indices := by
  intro data indices
  induction data, indices using build_ball_tree.induct with
  | case1 data indices s hdeg =>
    intro hlen
    rw [build_ball_tree]
    simp only [dif_pos hdeg, Ball.leafIndices]
    exact List.Perm.refl indices
  | case2 data indices s hdeg p ih1 ih2 =>
    intro hlen
    rw [build_ball_tree]
    simp only [dif_neg hdeg, Ball.leafIndices]
    have hll : (partition data indices (get_split data).1 (get_split data).2.2.2).1.length =
        (partition data indices (get_split data).1 (get_split data).2.2.2).2.2.1.length := by
      simp [partition]
    have hgl : (partition data indices (get_split data).1 (get_split data).2.2.2).2.1.length =
        (partition data indices (get_split data).1 (get_split data).2.2.2).2.2.2.length := by
      simp [partition]
    have hperm1 := ih1 hll
    have hperm2 := ih2 hgl
    refine (hperm1.append hperm2).trans ?_
    have hsplit : (partition data indices (get_split data).1 (get_split data).2.2.2).2.2.1 ++
        (partition data indices (get_split data).1 (get_split data).2.2.2).2.2.2 =
        ((List.filter (fun p => decide (p.1.getD (get_split data).1 0 < (get_split data).2.2.2)) (data.zip indices)) ++
         (List.filter (fun p => !decide (p.1.getD (get_split data).1 0 < (get_split data).2.2.2)) (data.zip indices))).map Prod.snd := by
      simp [partition]
    rw [hsplit]
    have hperm3 := (List.filter_append_perm
      (fun p : List α × ℕ => decide (p.1.getD (get_split data).1 0 < (get_split data).2.2.2)) (data.zip indices)).map Prod.snd
    refine hperm3.trans ?_
    rw [List.map_snd_zip data indices (le_of_eq hlen.symm)]

/-- C1: for every finite non-empty point set with one index per row, the
multiset union of the indices stored across all LeafBall nodes of
build_ball_tree(data, indices) is a permutation of the original index list:
every original index appears in exactly one leaf, exactly once. -/
theorem C1_leaves_partition_indices {α : Type} [LinearOrderedField α]
    (data : List (List α)) (indices : List ℕ)
    (hne : data ≠ []) (hlen : data.length = indices.length) :
    ((build_ball_tree data indices).leafIndices).Perm indices :=
  build_leafIndices_perm data indices hlen

/-- Witness for C1 on the concrete data set [[0], [2], [1]] with indices
[0, 1, 2]. -/
theorem C1_leaves_partition_indices_witness :
    ([[(0 : ℚ)], [2], [1]] ≠ ([] : List (List ℚ)) ∧
      ([[(0 : ℚ)], [2], [1]] : List (List ℚ)).length = [0, 1, 2].length) ∧
    ((build_ball_tree [[(0 : ℚ)], [2], [1]] [0, 1, 2]).leafIndices).Perm [0, 1, 2] :=
  ⟨⟨by simp, rfl⟩, C1_leaves_partition_indices [[(0 : ℚ)], [2], [1]] [0, 1, 2] (by simp) rfl⟩

end ClaimC1

section SpecSideDefs

/-- The square root of a scalar squared distance is the absolute difference:
this ties the |min_d - center| used in build_ball_tree to the source's
np.sqrt(dist_squared(min_d, center)) on scalars. -/
theorem sqrt_sq_abs (a b : ℝ) : Real.sqrt ((a - b) ^ 2) = |a - b| :=
  Real.sqrt_sq_eq_abs (a - b)

/-- The while loop of the leaf case, written in the order of the spec: while
the heap holds more than k elements and its top value exceeds d, remove the
top. -/
noncomputable def shrink_loop_spec (k : ℕ) (d : ℝ) (q : MaxPQ ℝ) : MaxPQ ℝ :=
  if hc : k < q.size ∧ d < q.top_valueD then shrink_loop_spec k d (q.remove_top).1 else q
termination_by q.size
decreasing_by
  have := (remove_top_size q).1
  omega

/-- The leaf-point processing step as the spec words it: skip when d exceeds
the top; skip when j equals the exclude index or is already among the stored
indices; otherwise shrink, then replace the top when it still exceeds d,
insert on an exact tie, and skip otherwise. -/
noncomputable def processPoint_spec (k : ℕ) (x : List ℝ) (x_index : Option ℕ)
    (q : MaxPQ ℝ) (jy : ℕ × List ℝ) : MaxPQ ℝ :=
  let d := dist_squared x jy.2
  if d > q.top_valueD then q
  else if some jy.1 = x_index ∨ some jy.1 ∈ q.indices then q
  else
    let q1 := shrink_loop_spec k d q
    if d < q1.top_valueD then q1.replace_top d jy.1
    else if q1.top_valueD = d then (q1.insert d jy.1).1
    else q1

/-- The internal-node step of find_NN as the spec words it: compute both
children's proxy distances, search the child with the smaller proxy first,
then search the other child exactly when its proxy distance squared does not
exceed the heap's current top value. -/
noncomputable def find_NN_node_spec (x : List ℝ) (k : ℕ) (left right : Ball ℝ)
    (q : MaxPQ ℝ) (x_index : Option ℕ) : MaxPQ ℝ :=
  let pL := Real.sqrt (dist_squared_bcast x left.center) - left.radius
  let pR := Real.sqrt (dist_squared_bcast x right.center) - right.radius
  let firstChild := if pL < pR then left else right
  let secondChild := if pL < pR then right else left
  let pSecond := if pL < pR then pR else pL
  let q1 := find_NN x k firstChild q x_index
  if pSecond ^ 2 ≤ q1.top_valueD then find_NN x k secondChild q1 x_index else q1

theorem shrink_loop_eq_spec (k : ℕ) (d : ℝ) :
    ∀ q : MaxPQ ℝ, shrink_loop k d q = shrink_loop_spec k d q := by
  have H : ∀ (n : ℕ) (q : MaxPQ ℝ), q.size = n → shrink_loop k d q = shrink_loop_spec k d q := by
    intro n
    induction n using Nat.strong_induction_on with
    | _ n ih =>
      intro q hq
      rw [shrink_loop, shrink_loop_spec]
      by_cases hc : d < q.top_valueD ∧ k < q.size
      · rw [dif_pos hc, dif_pos ⟨hc.2, hc.1⟩]
        refine ih ((q.remove_top).1.size) ?_ _ rfl
        have := (remove_top_size q).1
        omega
      · rw [dif_neg hc, dif_neg (fun h2 => hc ⟨h2.2, h2.1⟩)]
  exact fun q => H q.size q rfl

theorem processPoint_eq_spec (k : ℕ) (x : List ℝ) (xi : Option ℕ)
    (q : MaxPQ ℝ) (jy : ℕ × List ℝ) :
    processPoint k x xi q jy = processPoint_spec k x xi q jy := by
  simp only [processPoint, processPoint_spec]
  by_cases h1 : dist_squared x jy.2 > q.top_valueD
  · rw [if_pos h1, if_pos h1]
  · rw [if_neg h1, if_neg h1]
    by_cases h2 : some jy.1 ≠ xi ∧ some jy.1 ∉ q.indices
    · have hnD : ¬(some jy.1 = xi ∨ some jy.1 ∈ q.indices) := by
        intro hD
        rcases hD with he | hm
        · exact h2.1 he
        · exact h2.2 hm
      rw [if_pos h2, if_neg hnD, shrink_loop_eq_spec]
      by_cases h3 : dist_squared x jy.2 < (shrink_loop_spec k (dist_squared x jy.2) q).top_valueD
      · rw [if_pos h3, if_pos h3]
      · rw [if_neg h3, if_neg h3]
        by_cases h4 : dist_squared x jy.2 = (shrink_loop_spec k (dist_squared x jy.2) q).top_valueD
        · rw [if_pos h4, if_pos h4.symm]
        · rw [if_neg h4, if_neg (fun h => h4 h.symm)]
    · have hD : some jy.1 = xi ∨ some jy.1 ∈ q.indices := by
        rcases not_and_or.mp h2 with h | h
        · exact Or.inl (not_not.mp h)
        · exact Or.inr (not_not.mp h)
      rw [if_neg h2, if_pos hD]

end SpecSideDefs

section ClaimC2

/-- C2: in every leaf reached by find_NN, each leaf point (index j, point y)
with squared distance d to the query x is processed exactly as the spec
describes: skipped when d exceeds the heap top; skipped when j equals the
exclude index or j is already among the heap's stored indices; otherwise
tops are removed while the heap holds more than k elements and its top
exceeds d, then the top is replaced with (d, j) if it still exceeds d,
(d, j) is inserted if the top exactly equals d, and y is skipped otherwise.
Stated for every heap, in particular every heap of size at least k. -/
theorem C2_leaf_point_processing :
    (∀ (k : ℕ) (x : List ℝ) (xi : Option ℕ) (q : MaxPQ ℝ) (j : ℕ) (y : List ℝ),
      processPoint k x xi q (j, y) = processPoint_spec k x xi q (j, y)) ∧
    (∀ (k : ℕ) (x : List ℝ) (xi : Option ℕ) (q : MaxPQ ℝ) (c r : ℝ)
      (data : List (List ℝ)) (indices : List ℕ),
      find_NN x k (Ball.LeafBall c r data indices) q xi =
        (indices.zip data).foldl (processPoint_spec k x xi) q) := by
  constructor
  · intro k x xi q j y
    exact processPoint_eq_spec k x xi q (j, y)
  · intro k x xi q c r data indices
    simp only [find_NN]
    have hfun : processPoint k x xi = processPoint_spec k x xi := by
      funext q1 jy
      exact processPoint_eq_spec k x xi q1 jy
    rw [hfun]

end ClaimC2

section ClaimC3

/-- The summary stored at the root of every built subtree: center is the
scalar mid-point min_d + (max_d - min_d)/2 and radius is the scalar
half-range (max_d - min_d)/2 of the node's own subset along its chosen
split axis. -/
theorem build_summary {α : Type} [LinearOrderedField α]
    (data : List (List α)) (indices : List ℕ) (hne : data ≠ []) :
    (build_ball_tree data indices).center =
      (get_split data).2.1 + ((get_split data).2.2.1 - (get_split data).2.1) / 2 ∧
    (build_ball_tree data indices).radius =
      ((get_split data).2.2.1 - (get_split data).2.1) / 2 := by
  have hchar := get_split_char data
  have hcolne : col data (get_split data).1 ≠ [] := by
    simp only [col, ne_eq, List.map_eq_nil_iff]
    exact hne
  have hminmax : (get_split data).2.1 ≤ (get_split data).2.2.1 := by
    rw [hchar.1, hchar.2.1]
    exact amin_le_amax hcolne
  have habs : |(get_split data).2.1 - ((get_split data).2.1 +
      ((get_split data).2.2.1 - (get_split data).2.1) / 2)| =
      ((get_split data).2.2.1 - (get_split data).2.1) / 2 := by
    have hrw : (get_split data).2.1 - ((get_split data).2.1 +
        ((get_split data).2.2.1 - (get_split data).2.1) / 2) =
        -(((get_split data).2.2.1 - (get_split data).2.1) / 2) := by ring
    rw [hrw, abs_neg, abs_of_nonneg (by linarith)]
  rw [build_ball_tree]
  split
  · exact ⟨rfl, habs⟩
  · exact ⟨rfl, habs⟩

/-- C3: at every internal node, find_NN computes for each child the scalar
proxy distance sqrt(dist_squared(query, child.center)) - child.radius,
searches the child with the smaller proxy distance first, and afterwards
searches the other child exactly when that child's proxy distance squared
does not exceed the heap's current top value; and in every built tree the
center and radius of a node are the scalar mid-point and half-range of its
subset along its chosen split axis (scalars, not D-dimensional vectors). -/
theorem C3_node_proxy_order_prune :
    (∀ (x : List ℝ) (k : ℕ) (c r : ℝ) (l rt : Ball ℝ) (q : MaxPQ ℝ) (xi : Option ℕ),
      find_NN x k (Ball.NodeBall c r l rt) q xi = find_NN_node_spec x k l rt q xi) ∧
    (∀ (α : Type) [LinearOrderedField α] (data : List (List α)) (indices : List ℕ),
      data ≠ [] →
      (build_ball_tree data indices).center =
        (get_split data).2.1 + ((get_split data).2.2.1 - (get_split data).2.1) / 2 ∧
      (build_ball_tree data indices).radius =
        ((get_split data).2.2.1 - (get_split data).2.1) / 2) := by
  constructor
  · intro x k c r l rt q xi
    simp only [find_NN, find_NN_node_spec]
    by_cases hLR : Real.sqrt (dist_squared_bcast x l.center) - l.radius <
        Real.sqrt (dist_squared_bcast x rt.center) - rt.radius
    · rw [if_pos hLR, if_pos hLR, if_pos hLR, if_pos hLR]
      by_cases hpr : (Real.sqrt (dist_squared_bcast x rt.center) - rt.radius) ^ 2 >
          (find_NN x k l q xi).top_valueD
      · rw [if_pos hpr, if_neg (not_le.mpr hpr)]
      · rw [if_neg hpr, if_pos (not_lt.mp hpr)]
    · rw [if_neg hLR, if_neg hLR, if_neg hLR, if_neg hLR]
      by_cases hpr : (Real.sqrt (dist_squared_bcast x l.center) - l.radius) ^ 2 >
          (find_NN x k rt q xi).top_valueD
      · rw [if_pos hpr, if_neg (not_le.mpr hpr)]
      · rw [if_neg hpr, if_pos (not_lt.mp hpr)]
  · intro α _ data indices hne
    exact build_summary data indices hne

/-- Witness for C3 on the concrete data set [[0], [2], [1]]. -/
theorem C3_node_proxy_order_prune_witness :
    ([[(0 : ℚ)], [2], [1]] ≠ ([] : List (List ℚ))) ∧
    ((build_ball_tree [[(0 : ℚ)], [2], [1]] [0, 1, 2]).center =
      (get_split [[(0 : ℚ)], [2], [1]]).2.1 +
        ((get_split [[(0 : ℚ)], [2], [1]]).2.2.1 - (get_split [[(0 : ℚ)], [2], [1]]).2.1) / 2 ∧
     (build_ball_tree [[(0 : ℚ)], [2], [1]] [0, 1, 2]).radius =
      ((get_split [[(0 : ℚ)], [2], [1]]).2.2.1 - (get_split [[(0 : ℚ)], [2], [1]]).2.1) / 2) :=
  ⟨by simp, C3_node_proxy_order_prune.2 ℚ [[(0 : ℚ)], [2], [1]] [0, 1, 2] (by simp)⟩

end ClaimC3

section FitErrorHandling

/-- The invalid fit inputs whose assert actually fires and is caught by the
except block: None, a non-array, or an array that is empty in either
dimension after the 1-D reshape.  This set is strictly narrower than the
wrong-shape inputs: a 0-d array makes the first shape assert raise an
IndexError instead of an AssertionError (fit_arr0d_escapes below), and an
array of three or more dimensions passes both asserts. -/
def fit_caught_invalid : PyInput → Prop
  | .null => True
  | .notArray => True
  | .arr0d _ => False
  | .arr1d v => v = []
  | .arr2d m => m = [] ∨ (m.getD 0 []).length = 0

/-- The number of data points of the fitted state (X.shape[0]). -/
def N_of (st : LOFState) : ℕ := (st.data.getD []).length

/-- The get_neighborhood precondition failures: not fitted, or i or k out of
range. -/
def nbhd_guard_fails (st : LOFState) (i k : ℤ) : Prop :=
  st.ball_tree = none ∨ st.data = none ∨
    ¬(0 < k ∧ k < (N_of st : ℤ) ∧ 0 ≤ i ∧ i < (N_of st : ℤ))

/-- The get_LOF precondition failures: not fitted, or k out of range. -/
def lof_guard_fails (st : LOFState) (k : ℤ) : Prop :=
  st.ball_tree = none ∨ st.data = none ∨ ¬(0 < k ∧ k < (N_of st : ℤ))

/-- The guard behaviour that does hold: the caught fit failures and every
get_neighborhood / get_LOF precondition failure are reported with the
state unchanged.  This supports the analysis of the eager-guard claim but
deliberately does not cover the wrong-shape ndarray inputs: on those the
real fit mutates state or lets an exception escape (fit_arr0d_escapes). -/
theorem guards_report_without_mutation :
    (∀ (st : LOFState) (X : PyInput), fit_caught_invalid X → fit st X = (st, .caught)) ∧
    (∀ (st : LOFState) (i k : ℤ) (sample : List ℕ),
      nbhd_guard_fails st i k → get_neighborhood st i k sample = (st, none)) ∧
    (∀ (st : LOFState) (k : ℤ) (samples : List (List ℕ)),
      lof_guard_fails st k → get_LOF st k samples = (st, none)) := by
  refine ⟨?_, ?_, ?_⟩
  · intro st X hX
    match X with
    | .null => rfl
    | .notArray => rfl
    | .arr0d v => exact hX.elim
    | .arr1d v =>
      have hv : v = [] := hX
      subst hv
      simp [fit]
    | .arr2d m =>
      rw [fit]
      rcases hX with hm | hm
      · subst hm
        rw [if_neg (fun hc => by simp at hc)]
      · rw [if_neg (fun hc => absurd hc.2 (by omega))]
  · intro st i k sample hfail
    rcases hst : st.ball_tree with _ | tree
    · rcases hdat : st.data with _ | X <;> simp only [get_neighborhood, hst, hdat]
    · rcases hdat : st.data with _ | X
      · simp only [get_neighborhood, hst, hdat]
      · rcases hfail with h | h | h
        · rw [hst] at h; exact absurd h (by simp)
        · rw [hdat] at h; exact absurd h (by simp)
        · simp only [get_neighborhood, hst, hdat]
          rw [if_neg (by
            rw [N_of, hdat] at h
            simpa using h)]
  · intro st k samples hfail
    rcases hst : st.ball_tree with _ | tree
    · rcases hdat : st.data with _ | X <;> simp only [get_LOF, hst, hdat]
    · rcases hdat : st.data with _ | X
      · simp only [get_LOF, hst, hdat]
      · rcases hfail with h | h | h
        · rw [hst] at h; exact absurd h (by simp)
        · rw [hdat] at h; exact absurd h (by simp)
        · simp only [get_LOF, hst, hdat]
          rw [if_neg (by
            rw [N_of, hdat] at h
            simpa using h)]

/-- A wrong-shape input on which fit neither detects the problem with an
assert nor reports a recoverable failure: on a 0-d ndarray the first shape
assert itself raises an IndexError (X.shape[0] on the empty shape tuple),
which the except AssertionError handler does not catch, so the exception
escapes the method; the state survives only because the failing expression
precedes the assignments. -/
theorem fit_arr0d_escapes (st : LOFState) (v : ℝ) :
    fit st (PyInput.arr0d v) = (st, FitExit.escaped) := rfl

end FitErrorHandling

section ListSlotLemmas

theorem getD_set_self {β : Type} (a : List β) (d b : β) {i : ℕ} (hi : i < a.length) :
    (a.set i b).getD i d = b := by
  rw [List.getD_eq_getElem?_getD, List.getElem?_set, if_pos rfl, if_pos hi]
  rfl

theorem getD_set_other {β : Type} (a : List β) (d b : β) {i s : ℕ} (h : i ≠ s) :
    (a.set i b).getD s d = a.getD s d := by
  rw [List.getD_eq_getElem?_getD, List.getElem?_set, if_neg h, ← List.getD_eq_getElem?_getD]

theorem exch_length {β : Type} (a : List β) (d : β) (i j : ℕ) :
    (exch a d i j).length = a.length := by
  simp [exch]

theorem getD_exch_fst {β : Type} (a : List β) (d : β) {i j : ℕ} (hi : i < a.length) :
    (exch a d i j).getD i d = a.getD j d := by
  show ((a.set j (a.getD i d)).set i (a.getD j d)).getD i d = a.getD j d
  exact getD_set_self _ _ _ (by simpa using hi)

theorem getD_exch_snd {β : Type} (a : List β) (d : β) {i j : ℕ} (hj : j < a.length)
    (hne : i ≠ j) : (exch a d i j).getD j d = a.getD i d := by
  show ((a.set j (a.getD i d)).set i (a.getD j d)).getD j d = a.getD i d
  rw [getD_set_other _ _ _ hne]
  exact getD_set_self _ _ _ hj

theorem getD_exch_other {β : Type} (a : List β) (d : β) {i j s : ℕ} (h1 : i ≠ s)
    (h2 : j ≠ s) : (exch a d i j).getD s d = a.getD s d := by
  show ((a.set j (a.getD i d)).set i (a.getD j d)).getD s d = a.getD s d
  rw [getD_set_other _ _ _ h1, getD_set_other _ _ _ h2]

end ListSlotLemmas

section HeapOrderDefs

/-- The numeric value in slot s of the queue (junk default on an unused
slot; the invariant WF tells which slots are populated). -/
def pval {α : Type} [Inhabited α] (h : MaxPQ α) (s : ℕ) : α :=
  (h.pq.getD s none).getD default

/-- Well-formedness of a queue state: both arrays have length capacity + 1,
size does not exceed the capacity, slots 1..size are populated in both
arrays, and slot 0 and the slots above size hold None. -/
def WF {α : Type} (h : MaxPQ α) : Prop :=
  h.pq.length = h.maxSize + 1 ∧ h.indices.length = h.maxSize + 1 ∧ h.size ≤ h.maxSize ∧
  ∀ s, s ≤ h.maxSize →
    ((1 ≤ s ∧ s ≤ h.size → (h.pq.getD s none).isSome ∧ (h.indices.getD s none).isSome) ∧
     (s = 0 ∨ h.size < s → h.pq.getD s none = none ∧ h.indices.getD s none = none))

/-- Max-heap order, child form: every populated non-root slot is at most its
parent. -/
def heapOrd {α : Type} [Inhabited α] [LinearOrder α] (h : MaxPQ α) : Prop :=
  ∀ c, c ≤ h.size → 2 ≤ c → pval h c ≤ pval h (c / 2)

/-- Max-heap order as the claim words it: for every slot i, pq[i] >= pq[2i]
and pq[i] >= pq[2i+1] whenever those children are populated. -/
def heap_order {α : Type} [Inhabited α] [LinearOrder α] (h : MaxPQ α) : Prop :=
  ∀ i, 1 ≤ i → (2 * i ≤ h.size → pval h (2 * i) ≤ pval h i) ∧
    (2 * i + 1 ≤ h.size → pval h (2 * i + 1) ≤ pval h i)

theorem heapOrd_to_heap_order {α : Type} [Inhabited α] [LinearOrder α] (h : MaxPQ α)
    (ho : heapOrd h) : heap_order h := by
  intro i hi
  constructor
  · intro hle
    have h2 : 2 * i / 2 = i := by omega
    have := ho (2 * i) hle (by omega)
    rwa [h2] at this
  · intro hle
    have h2 : (2 * i + 1) / 2 = i := by omega
    have := ho (2 * i + 1) hle (by omega)
    rwa [h2] at this

theorem pval_eq_some {α : Type} [Inhabited α] (h : MaxPQ α) (hwf : WF h) {s : ℕ}
    (h1 : 1 ≤ s) (h2 : s ≤ h.size) : h.pq.getD s none = some (pval h s) := by
  have hs := ((hwf.2.2.2 s (le_trans h2 hwf.2.2.1)).1 ⟨h1, h2⟩).1
  rcases Option.isSome_iff_exists.mp hs with ⟨v, hv⟩
  rw [pval, hv]
  rfl

theorem less_eq_pval {α : Type} [Inhabited α] [LinearOrder α] (h : MaxPQ α) (hwf : WF h)
    {i j : ℕ} (hi1 : 1 ≤ i) (hi2 : i ≤ h.size) (hj1 : 1 ≤ j) (hj2 : j ≤ h.size) :
    h.less i j = decide (pval h i < pval h j) := by
  rw [MaxPQ.less, pval_eq_some h hwf hi1 hi2, pval_eq_some h hwf hj1 hj2]
  rfl

theorem WF_exch {α : Type} (h : MaxPQ α) (hwf : WF h) {i j : ℕ} (hij : i ≠ j)
    (hi1 : 1 ≤ i) (hi2 : i ≤ h.size) (hj1 : 1 ≤ j) (hj2 : j ≤ h.size) :
    WF ⟨h.size, h.maxSize, exch h.pq none i j, exch h.indices none i j⟩ := by
  obtain ⟨hl1, hl2, hsm, hslots⟩ := hwf
  have hilen : i < h.pq.length := by omega
  have hjlen : j < h.pq.length := by omega
  have hilen2 : i < h.indices.length := by omega
  have hjlen2 : j < h.indices.length := by omega
  refine ⟨by simp [exch_length, hl1], by simp [exch_length, hl2], hsm, ?_⟩
  intro s hs
  constructor
  · rintro ⟨hs1, hs2⟩
    by_cases hsi : i = s
    · subst hsi
      rw [getD_exch_fst _ _ hilen, getD_exch_fst _ _ hilen2]
      exact (hslots j (by omega)).1 ⟨hj1, hj2⟩
    · by_cases hsj : j = s
      · subst hsj
        rw [getD_exch_snd _ _ hjlen hij, getD_exch_snd _ _ hjlen2 hij]
        exact (hslots i (by omega)).1 ⟨hi1, hi2⟩
      · rw [getD_exch_other _ _ hsi hsj, getD_exch_other _ _ hsi hsj]
        exact (hslots s hs).1 ⟨hs1, hs2⟩
  · intro hs0
    dsimp only at hs0
    have hsi : i ≠ s := by rcases hs0 with h0 | h0 <;> omega
    have hsj : j ≠ s := by rcases hs0 with h0 | h0 <;> omega
    rw [getD_exch_other _ _ hsi hsj, getD_exch_other _ _ hsi hsj]
    exact (hslots s hs).2 hs0

theorem pval_exch_fst {α : Type} [Inhabited α] (h : MaxPQ α) {i j : ℕ} (hi : i < h.pq.length) :
    pval ⟨h.size, h.maxSize, exch h.pq none i j, exch h.indices none i j⟩ i = pval h j := by
  rw [pval, pval]
  dsimp only
  rw [getD_exch_fst _ _ hi]

theorem pval_exch_snd {α : Type} [Inhabited α] (h : MaxPQ α) {i j : ℕ}
    (hj : j < h.pq.length) (hij : i ≠ j) :
    pval ⟨h.size, h.maxSize, exch h.pq none i j, exch h.indices none i j⟩ j = pval h i := by
  rw [pval, pval]
  dsimp only
  rw [getD_exch_snd _ _ hj hij]

theorem pval_exch_other {α : Type} [Inhabited α] (h : MaxPQ α) {i j s : ℕ}
    (h1 : i ≠ s) (h2 : j ≠ s) :
    pval ⟨h.size, h.maxSize, exch h.pq none i j, exch h.indices none i j⟩ s = pval h s := by
  rw [pval, pval]
  dsimp only
  rw [getD_exch_other _ _ h1 h2]

theorem pval_set_other {α : Type} [Inhabited α] (h : MaxPQ α) {i s : ℕ} (o : Option α)
    (oi : Option ℕ) (hne : i ≠ s) (sz ms : ℕ) :
    pval ⟨sz, ms, h.pq.set i o, h.indices.set i oi⟩ s = pval h s := by
  rw [pval, pval]
  dsimp only
  rw [getD_set_other _ _ _ hne]

end HeapOrderDefs

section SwimSinkMain

variable {α : Type} [Inhabited α] [LinearOrder α]

/-- MaxPQ.swim restores the max-heap order: if every parent-child edge except
possibly the one into slot i is in order, and (when i has a parent) the
children of i do not exceed the parent of i, then after swim(i) the whole
array is heap ordered (and stays well formed). -/
theorem swim_main (i : ℕ) :
    ∀ h : MaxPQ α, WF h → 1 ≤ i → i ≤ h.size →
    (∀ c, c ≤ h.size → 2 ≤ c → c ≠ i → pval h c ≤ pval h (c / 2)) →
    (2 ≤ i → ∀ c, c ≤ h.size → (c = 2 * i ∨ c = 2 * i + 1) → pval h c ≤ pval h (i / 2)) →
    WF (h.swim i) ∧ heapOrd (h.swim i) := by
  induction i using Nat.strong_induction_on with
  | _ i ih =>
    intro h hwf hi1 hi2 hex haux
    rw [MaxPQ.swim]
    split
    · next hc =>
      have h2i : 2 ≤ i := hc.1
      have hij : i ≠ i / 2 := by omega
      have hilen : i < h.pq.length := by have := hwf.1; have := hwf.2.2.1; omega
      have hplen : i / 2 < h.pq.length := by omega
      have hp1 : 1 ≤ i / 2 := by omega
      have hp2 : i / 2 ≤ h.size := by omega
      have hlti : pval h (i / 2) < pval h i := by
        have := hc.2
        rw [less_eq_pval h hwf hp1 hp2 hi1 hi2] at this
        exact of_decide_eq_true this
      refine ih (i / 2) (by omega) _ (WF_exch h hwf hij hi1 hi2 hp1 hp2) hp1 hp2 ?_ ?_
      · intro c hc2 hc3 hcne
        dsimp only at hc2
        by_cases hci : c = i
        · rw [hci, pval_exch_fst h hilen, pval_exch_snd h hplen hij]
          exact le_of_lt hlti
        · by_cases hcp : c / 2 = i
          · have hcd : c = 2 * i ∨ c = 2 * i + 1 := by omega
            have hcni : i ≠ c := fun he => hci he.symm
            have hcnp : i / 2 ≠ c := by omega
            rw [pval_exch_other h hcni hcnp, hcp, pval_exch_fst h hilen]
            exact haux h2i c hc2 hcd
          · by_cases hcp2 : c / 2 = i / 2
            · have hcni : i ≠ c := fun he => hci he.symm
              have hcnp : i / 2 ≠ c := fun he => hcne he.symm
              rw [pval_exch_other h hcni hcnp, hcp2, pval_exch_snd h hplen hij]
              exact le_trans (by
                have := hex c hc2 hc3 hci
                rwa [hcp2] at this) (le_of_lt hlti)
            · have hcni : i ≠ c := fun he => hci he.symm
              have hcnp : i / 2 ≠ c := fun he => hcne he.symm
              have hcni2 : i ≠ c / 2 := fun he => hcp he.symm
              have hcnp2 : i / 2 ≠ c / 2 := fun he => hcp2 he.symm
              rw [pval_exch_other h hcni hcnp, pval_exch_other h hcni2 hcnp2]
              exact hex c hc2 hc3 hci
      · intro h2p c hc2 hcd
        dsimp only at hc2
        have hq : i / 2 / 2 < i / 2 := by omega
        have hqni : i ≠ i / 2 / 2 := by omega
        have hqnp : i / 2 ≠ i / 2 / 2 := by omega
        rw [pval_exch_other h hqni hqnp]
        by_cases hci : c = i
        · rw [hci, pval_exch_fst h hilen]
          exact hex (i / 2) hp2 h2p (by omega)
        · have hcni : i ≠ c := fun he => hci he.symm
          have hcnp : i / 2 ≠ c := by omega
          rw [pval_exch_other h hcni hcnp]
          have hcp : c / 2 = i / 2 := by omega
          have h1le : pval h c ≤ pval h (i / 2) := by
            have := hex c hc2 (by omega) hci
            rwa [hcp] at this
          have h2le : pval h (i / 2) ≤ pval h (i / 2 / 2) := hex (i / 2) hp2 h2p (by omega)
          exact le_trans h1le h2le
    · next hc =>
      refine ⟨hwf, ?_⟩
      intro c hc2 hc3
      by_cases hci : c = i
      · subst hci
        have hl : ¬ (h.less (c / 2) c = true) := fun hl => hc ⟨by omega, hl⟩
        rw [less_eq_pval h hwf (by omega) (by omega) (by omega) hc2] at hl
        simp only [decide_eq_true_eq] at hl
        exact not_lt.mp hl
      · exact hex c hc2 hc3 hci

/-- MaxPQ.sink restores the max-heap order: if every parent-child edge whose
parent is not i is in order, and (when i has a parent) the children of i do
not exceed the parent of i, then after sink(i) the whole array is heap
ordered (and stays well formed). -/
theorem sink_main :
    ∀ (h : MaxPQ α) (i : ℕ), WF h → 1 ≤ i →
    (∀ c, c ≤ h.size → 2 ≤ c → c / 2 ≠ i → pval h c ≤ pval h (c / 2)) →
    (2 ≤ i → ∀ c, c ≤ h.size → (c = 2 * i ∨ c = 2 * i + 1) → pval h c ≤ pval h (i / 2)) →
    WF (h.sink i) ∧ heapOrd (h.sink i) := by
  intro h i
  induction h, i using MaxPQ.sink.induct with
  | case1 h i hg hl ih =>
    intro hwf hi1 hex haux
    rw [MaxPQ.sink, dif_pos hg, dif_pos hl]
    have hj1 : 2 * i ≤ h.sink_child i := by
      rw [MaxPQ.sink_child]
      split <;> omega
    have hj2 : h.sink_child i ≤ 2 * i + 1 := by
      rw [MaxPQ.sink_child]
      split <;> omega
    have hjs := MaxPQ.sink_child_spec h i hg hl
    have hjlt : i < h.sink_child i := hjs.1
    have hjsz : h.sink_child i ≤ h.size := hjs.2
    have hij : i ≠ h.sink_child i := by omega
    have hilen : i < h.pq.length := by have := hwf.1; have := hwf.2.2.1; omega
    have hjlen : h.sink_child i < h.pq.length := by have := hwf.1; have := hwf.2.2.1; omega
    have hjp : h.sink_child i / 2 = i := by omega
    have hltj : pval h i < pval h (h.sink_child i) := by
      have hll := hl
      rw [less_eq_pval h hwf hi1 (by omega) (by omega) hjsz] at hll
      exact of_decide_eq_true hll
    -- the sibling of the chosen child (when populated) does not exceed it
    have hsib : ∀ c, c ≤ h.size → (c = 2 * i ∨ c = 2 * i + 1) → c ≠ h.sink_child i →
        pval h c ≤ pval h (h.sink_child i) := by
      intro c hcs hcd hcne
      by_cases hcc : 2 * i < h.size ∧ h.less (2 * i) (2 * i + 1)
      · have hje : h.sink_child i = 2 * i + 1 := by rw [MaxPQ.sink_child, if_pos hcc]
        rw [hje] at hcne
        have hce : c = 2 * i := by omega
        have hlt2 := hcc.2
        rw [less_eq_pval h hwf (by omega) (by omega) (by omega) (by omega)] at hlt2
        rw [hje, hce]
        exact le_of_lt (of_decide_eq_true hlt2)
      · have hje : h.sink_child i = 2 * i := by rw [MaxPQ.sink_child, if_neg hcc]
        rw [hje] at hcne
        have hce : c = 2 * i + 1 := by omega
        rcases not_and_or.mp hcc with hcc2 | hcc2
        · omega
        · have hl2 : h.less (2 * i) (2 * i + 1) = false := by
            rcases hb : h.less (2 * i) (2 * i + 1) with _ | _
            · rfl
            · exact absurd hb hcc2
          rw [less_eq_pval h hwf (by omega) (by omega) (by omega) (by omega)] at hl2
          rw [hje, hce]
          exact not_lt.mp (of_decide_eq_false hl2)
    have hwf1 : WF ⟨h.size, h.maxSize, exch h.pq none i (h.sink_child i),
        exch h.indices none i (h.sink_child i)⟩ :=
      WF_exch h hwf hij hi1 (by omega) (by omega) hjsz
    refine ih hwf1 (by omega) ?_ ?_
    · intro c hc2 hc3 hcne
      dsimp only at hc2
      by_cases hci : c = h.sink_child i
      · -- c is the chosen child: its slot now holds the old parent value
        rw [hci, pval_exch_snd h hjlen hij, hjp, pval_exch_fst h hilen]
        exact le_of_lt hltj
      · by_cases hcp : c / 2 = i
        · -- c is the sibling of the chosen child
          have hcd : c = 2 * i ∨ c = 2 * i + 1 := by omega
          have h1 : i ≠ c := by omega
          have h2 : h.sink_child i ≠ c := fun he => hci he.symm
          rw [pval_exch_other h h1 h2, hcp, pval_exch_fst h hilen]
          exact hsib c hc2 hcd hci
        · by_cases hcc : c = i
          · -- the edge from slot i up to its parent
            have h2c : 2 ≤ i := by omega
            have h3 : i ≠ i / 2 := by omega
            have h4 : h.sink_child i ≠ i / 2 := by omega
            rw [hcc, pval_exch_fst h hilen, pval_exch_other h h3 h4]
            exact haux h2c (h.sink_child i) hjsz (by omega)
          · have h1 : i ≠ c := fun he => hcc he.symm
            have h2 : h.sink_child i ≠ c := fun he => hci he.symm
            have h3 : i ≠ c / 2 := fun he => hcp he.symm
            have h4 : h.sink_child i ≠ c / 2 := fun he => hcne he.symm
            rw [pval_exch_other h h1 h2, pval_exch_other h h3 h4]
            exact hex c hc2 hc3 hcp
    · intro h2j c hc2 hcd
      dsimp only at hc2
      have h1 : i ≠ c := by omega
      have h2 : h.sink_child i ≠ c := by omega
      rw [pval_exch_other h h1 h2, hjp, pval_exch_fst h hilen]
      have hcp : c / 2 = h.sink_child i := by omega
      have hle := hex c hc2 (by omega) (by rw [hcp]; omega)
      rwa [hcp] at hle
  | case2 h i hg hl =>
    intro hwf hi1 hex haux
    rw [MaxPQ.sink, dif_pos hg, dif_neg hl]
    refine ⟨hwf, ?_⟩
    intro c hc2 hc3
    by_cases hcp : c / 2 = i
    · have hcd : c = 2 * i ∨ c = 2 * i + 1 := by omega
      have hj1 : 2 * i ≤ h.sink_child i := by
        rw [MaxPQ.sink_child]
        split <;> omega
      have hj2 : h.sink_child i ≤ 2 * i + 1 := by
        rw [MaxPQ.sink_child]
        split <;> omega
      have hjsz : h.sink_child i ≤ h.size := by
        rw [MaxPQ.sink_child]
        split
        · next hcc => omega
        · exact hg
      have hjge : pval h (h.sink_child i) ≤ pval h i := by
        have hlf : h.less i (h.sink_child i) = false := by
          rcases hb : h.less i (h.sink_child i) with _ | _
          · rfl
          · exact absurd hb hl
        rw [less_eq_pval h hwf hi1 (by omega) (by omega) hjsz] at hlf
        exact not_lt.mp (of_decide_eq_false hlf)
      rw [hcp]
      by_cases hcc : 2 * i < h.size ∧ h.less (2 * i) (2 * i + 1)
      · have hje : h.sink_child i = 2 * i + 1 := by rw [MaxPQ.sink_child, if_pos hcc]
        rcases hcd with hce | hce
        · have hlt2 := hcc.2
          rw [less_eq_pval h hwf (by omega) (by omega) (by omega) (by omega)] at hlt2
          rw [hce]
          refine le_trans (le_of_lt (of_decide_eq_true hlt2)) ?_
          rw [← hje]
          exact hjge
        · rw [hce, ← hje]
          exact hjge
      · have hje : h.sink_child i = 2 * i := by rw [MaxPQ.sink_child, if_neg hcc]
        rcases hcd with hce | hce
        · rw [hce, ← hje]
          exact hjge
        · rcases not_and_or.mp hcc with hcc2 | hcc2
          · omega
          · have hlf : h.less (2 * i) (2 * i + 1) = false := by
              rcases hb : h.less (2 * i) (2 * i + 1) with _ | _
              · rfl
              · exact absurd hb hcc2
            rw [less_eq_pval h hwf (by omega) (by omega) (by omega) (by omega)] at hlf
            rw [hce]
            refine le_trans (not_lt.mp (of_decide_eq_false hlf)) ?_
            rw [← hje]
            exact hjge
    · exact hex c hc2 hc3 hcp
  | case3 h i hg =>
    intro hwf hi1 hex haux
    rw [MaxPQ.sink, dif_neg hg]
    refine ⟨hwf, ?_⟩
    intro c hc2 hc3
    by_cases hcp : c / 2 = i
    · omega
    · exact hex c hc2 hc3 hcp


end SwimSinkMain

section HeapOpInvariants

variable {α : Type} [Inhabited α] [LinearOrder α]

theorem insert_inv (h : MaxPQ α) (v : α) (idx : ℕ) (hwf : WF h) (hord : heapOrd h) :
    WF (h.insert v idx).1 ∧ heapOrd (h.insert v idx).1 := by
  rw [MaxPQ.insert]
  split
  · next hlt =>
    have hlen1 : h.size + 1 < h.pq.length := by have := hwf.1; omega
    have hlen2 : h.size + 1 < h.indices.length := by have := hwf.2.1; omega
    have hwf0 : WF ⟨h.size + 1, h.maxSize, h.pq.set (h.size + 1) (some v),
        h.indices.set (h.size + 1) (some idx)⟩ := by
      obtain ⟨hl1, hl2, hsm, hslots⟩ := hwf
      refine ⟨by dsimp only; rw [List.length_set]; exact hl1,
        by dsimp only; rw [List.length_set]; exact hl2, by dsimp only; omega, ?_⟩
      intro s hs
      dsimp only at hs ⊢
      constructor
      · rintro ⟨hs1, hs2⟩
        by_cases hse : h.size + 1 = s
        · rw [← hse, getD_set_self _ _ _ hlen1, getD_set_self _ _ _ hlen2]
          exact ⟨rfl, rfl⟩
        · rw [getD_set_other _ _ _ hse, getD_set_other _ _ _ hse]
          exact (hslots s hs).1 ⟨hs1, by omega⟩
      · intro hs0
        have hse : h.size + 1 ≠ s := by omega
        rw [getD_set_other _ _ _ hse, getD_set_other _ _ _ hse]
        exact (hslots s hs).2 (by omega)
    have hpv : ∀ c, c ≤ h.size → pval ⟨h.size + 1, h.maxSize, h.pq.set (h.size + 1) (some v),
        h.indices.set (h.size + 1) (some idx)⟩ c = pval h c := by
      intro c hc
      exact pval_set_other h _ _ (by omega) _ _
    have hmain := swim_main (h.size + 1)
      ⟨h.size + 1, h.maxSize, h.pq.set (h.size + 1) (some v),
        h.indices.set (h.size + 1) (some idx)⟩ hwf0 (by omega) (by dsimp only; omega)
      (by
        intro c hc2 hc3 hcne
        dsimp only at hc2
        have hcs : c ≤ h.size := by omega
        have hcs2 : c / 2 ≤ h.size := by omega
        rw [hpv c hcs, hpv (c / 2) hcs2]
        exact hord c hcs hc3)
      (by
        intro h2 c hc2 hcd
        dsimp only at hc2
        omega)
    exact hmain
  · next => exact ⟨hwf, hord⟩

theorem remove_top_inv (h : MaxPQ α) (hwf : WF h) (hord : heapOrd h) :
    WF (h.remove_top).1 ∧ heapOrd (h.remove_top).1 := by
  rw [MaxPQ.remove_top]
  split
  · next => exact ⟨hwf, hord⟩
  · next hs0 =>
    split
    · next hs1 =>
      obtain ⟨hl1, hl2, hsm, hslots⟩ := hwf
      refine ⟨⟨by dsimp only; rw [List.length_set]; exact hl1,
        by dsimp only; rw [List.length_set]; exact hl2, by dsimp only; omega, ?_⟩, ?_⟩
      · intro s hs
        dsimp only at hs ⊢
        constructor
        · rintro ⟨hs1x, hs2x⟩
          omega
        · intro hs0x
          by_cases hse : 1 = s
          · rw [← hse, getD_set_self _ _ _ (by omega), getD_set_self _ _ _ (by omega)]
            exact ⟨rfl, rfl⟩
          · rw [getD_set_other _ _ _ hse, getD_set_other _ _ _ hse]
            refine (hslots s hs).2 ?_
            omega
      · intro c hc2 hc3
        dsimp only at hc2
        omega
    · next hs1 =>
      have hsz2 : 2 ≤ h.size := by omega
      have hlen1 : 1 < h.pq.length := by have := hwf.1; have := hwf.2.2.1; omega
      have hlenS : h.size < h.pq.length := by have := hwf.1; have := hwf.2.2.1; omega
      have hlen1i : 1 < h.indices.length := by have := hwf.2.1; have := hwf.2.2.1; omega
      have hlenSi : h.size < h.indices.length := by have := hwf.2.1; have := hwf.2.2.1; omega
      have hwf0 : WF ⟨h.size - 1, h.maxSize,
          (h.pq.set 1 (h.pq.getD h.size none)).set h.size none,
          (h.indices.set 1 (h.indices.getD h.size none)).set h.size none⟩ := by
        obtain ⟨hl1, hl2, hsm, hslots⟩ := hwf
        refine ⟨by dsimp only; rw [List.length_set, List.length_set]; exact hl1,
          by dsimp only; rw [List.length_set, List.length_set]; exact hl2,
          by dsimp only; omega, ?_⟩
        intro s hs
        dsimp only at hs ⊢
        constructor
        · rintro ⟨hs1x, hs2x⟩
          have hne : h.size ≠ s := by omega
          rw [getD_set_other _ _ _ hne, getD_set_other _ _ _ hne]
          by_cases hse : 1 = s
          · rw [← hse, getD_set_self _ _ _ hlen1, getD_set_self _ _ _ hlen1i]
            exact (hslots h.size (by omega)).1 ⟨by omega, le_refl _⟩
          · rw [getD_set_other _ _ _ hse, getD_set_other _ _ _ hse]
            exact (hslots s hs).1 ⟨hs1x, by omega⟩
        · intro hs0x
          by_cases hse : h.size = s
          · rw [← hse, getD_set_self _ _ _ (by simpa using hlenS),
                getD_set_self _ _ _ (by simpa using hlenSi)]
            exact ⟨rfl, rfl⟩
          · rw [getD_set_other _ _ _ hse, getD_set_other _ _ _ hse]
            have hs1ne : (1 : ℕ) ≠ s := by omega
            rw [getD_set_other _ _ _ hs1ne, getD_set_other _ _ _ hs1ne]
            exact (hslots s hs).2 (by omega)
      have hpv : ∀ c, 2 ≤ c → c ≤ h.size - 1 → pval ⟨h.size - 1, h.maxSize,
          (h.pq.set 1 (h.pq.getD h.size none)).set h.size none,
          (h.indices.set 1 (h.indices.getD h.size none)).set h.size none⟩ c = pval h c := by
        intro c hc1 hc2
        rw [pval, pval]
        dsimp only
        rw [getD_set_other _ _ _ (by omega : h.size ≠ c),
            getD_set_other _ _ _ (by omega : (1 : ℕ) ≠ c)]
      have hmain := sink_main ⟨h.size - 1, h.maxSize,
          (h.pq.set 1 (h.pq.getD h.size none)).set h.size none,
          (h.indices.set 1 (h.indices.getD h.size none)).set h.size none⟩ 1 hwf0 (le_refl 1)
        (by
          intro c hc2 hc3 hcne
          dsimp only at hc2
          have hcp : c / 2 ≤ h.size - 1 := by omega
          rw [hpv c hc3 hc2, hpv (c / 2) (by omega) hcp]
          exact hord c (by omega) hc3)
        (fun h2 => absurd h2 (by omega))
      exact hmain

theorem replace_top_inv (h : MaxPQ α) (v : α) (idx : ℕ) (hwf : WF h) (hord : heapOrd h)
    (hsz : 1 ≤ h.size) :
    WF (h.replace_top v idx) ∧ heapOrd (h.replace_top v idx) := by
  rw [MaxPQ.replace_top]
  have hlen1 : 1 < h.pq.length := by have := hwf.1; have := hwf.2.2.1; omega
  have hlen1i : 1 < h.indices.length := by have := hwf.2.1; have := hwf.2.2.1; omega
  have hwf0 : WF ⟨h.size, h.maxSize, h.pq.set 1 (some v), h.indices.set 1 (some idx)⟩ := by
    obtain ⟨hl1, hl2, hsm, hslots⟩ := hwf
    refine ⟨by dsimp only; rw [List.length_set]; exact hl1,
      by dsimp only; rw [List.length_set]; exact hl2, hsm, ?_⟩
    intro s hs
    dsimp only at hs ⊢
    constructor
    · rintro ⟨hs1x, hs2x⟩
      by_cases hse : 1 = s
      · rw [← hse, getD_set_self _ _ _ hlen1, getD_set_self _ _ _ hlen1i]
        exact ⟨rfl, rfl⟩
      · rw [getD_set_other _ _ _ hse, getD_set_other _ _ _ hse]
        exact (hslots s hs).1 ⟨hs1x, hs2x⟩
    · intro hs0x
      have hse : (1 : ℕ) ≠ s := by omega
      rw [getD_set_other _ _ _ hse, getD_set_other _ _ _ hse]
      exact (hslots s hs).2 hs0x
  have hmain := sink_main ⟨h.size, h.maxSize, h.pq.set 1 (some v),
      h.indices.set 1 (some idx)⟩ 1 hwf0 (le_refl 1)
    (by
      intro c hc2 hc3 hcne
      dsimp only at hc2
      rw [pval_set_other h _ _ (by omega) _ _, pval_set_other h _ _ (by omega) _ _]
      exact hord c hc2 hc3)
    (fun h2 => absurd h2 (by omega))
  exact hmain

/-- The root dominates every populated slot of a heap-ordered queue. -/
theorem heapOrd_top_max (h : MaxPQ α) (hord : heapOrd h) :
    ∀ c, 1 ≤ c → c ≤ h.size → pval h c ≤ pval h 1 := by
  intro c
  induction c using Nat.strong_induction_on with
  | _ c ihc =>
    intro h1 h2
    rcases eq_or_lt_of_le h1 with he | hgt
    · rw [← he]
    · refine le_trans (hord c h2 (by omega)) (ihc (c / 2) (by omega) (by omega) (by omega))

theorem filter_range_window (p : ℕ → Bool) :
    ∀ n k : ℕ, k < n → (∀ s, s < n → (p s = true ↔ 1 ≤ s ∧ s ≤ k)) →
      ((List.range n).filter p).length = k := by
  intro n
  induction n with
  | zero =>
    intro k hk _
    exact absurd hk (Nat.not_lt_zero k)
  | succ n ih =>
    intro k hk hchar
    rw [List.range_succ, List.filter_append, List.length_append]
    rcases Nat.lt_or_ge k n with hkn | hkn
    · have hpn : p n = false := by
        rcases hb : p n with _ | _
        · rfl
        · have := (hchar n (by omega)).mp hb
          omega
      have h2 := ih k hkn (fun s hs => hchar s (by omega))
      simp [hpn, h2]
    · have hkeq : k = n := by omega
      subst hkeq
      rcases Nat.eq_zero_or_pos k with h0 | hpos
      · have hp0 : p 0 = false := by
          rcases hb : p 0 with _ | _
          · rfl
          · have := (hchar 0 (by omega)).mp hb
            omega
        subst h0
        simp [hp0]
      · have hpn : p k = true := (hchar k (by omega)).mpr ⟨hpos, le_refl k⟩
        have h2 := ih (k - 1) (by omega) (fun s hs => by
          have hc := hchar s (by omega)
          constructor
          · intro hp
            have := hc.mp hp
            omega
          · intro hs2
            exact hc.mpr ⟨hs2.1, by omega⟩)
        rw [h2]
        simp [hpn]
        omega

/-- In a well-formed queue, size equals the number of populated slots of
each array. -/
theorem WF_popcount (h : MaxPQ α) (hwf : WF h) :
    ((List.range (h.maxSize + 1)).filter (fun s => (h.pq.getD s none).isSome)).length = h.size ∧
    ((List.range (h.maxSize + 1)).filter (fun s => (h.indices.getD s none).isSome)).length = h.size := by
  have hsm := hwf.2.2.1
  constructor
  · refine filter_range_window _ _ _ (by omega) ?_
    intro s hs
    constructor
    · intro hsome
      by_cases h1 : 1 ≤ s ∧ s ≤ h.size
      · exact h1
      · have h0 : s = 0 ∨ h.size < s := by omega
        have := ((hwf.2.2.2 s (by omega)).2 h0).1
        rw [this] at hsome
        cases hsome
    · intro h1
      exact (Option.isSome_iff_exists.mpr (by
        rcases Option.isSome_iff_exists.mp ((hwf.2.2.2 s (by omega)).1 h1).1 with ⟨v, hv⟩
        exact ⟨v, hv⟩))
  · refine filter_range_window _ _ _ (by omega) ?_
    intro s hs
    constructor
    · intro hsome
      by_cases h1 : 1 ≤ s ∧ s ≤ h.size
      · exact h1
      · have h0 : s = 0 ∨ h.size < s := by omega
        have := ((hwf.2.2.2 s (by omega)).2 h0).2
        rw [this] at hsome
        cases hsome
    · intro h1
      exact ((hwf.2.2.2 s (by omega)).1 h1).2

end HeapOpInvariants

section ClaimC6

/-- C6: after every mutating MaxPQ operation (insert, remove_top, and
replace_top on a non-empty queue) starting from a well-formed heap-ordered
state, the populated slots 1..size satisfy the max-heap order (for every
slot i, pq[i] >= pq[2i] and pq[i] >= pq[2i+1] whenever those slots are
populated), pq[1] is the maximum stored value, and size equals the number
of populated slots of both arrays. -/
theorem C6_heap_order_after_ops {α : Type} [Inhabited α] [LinearOrder α]
    (h : MaxPQ α) (v : α) (idx : ℕ) (hwf : WF h) (hord : heapOrd h) :
    (heap_order (h.insert v idx).1 ∧
      ((List.range ((h.insert v idx).1.maxSize + 1)).filter
        (fun s => ((h.insert v idx).1.pq.getD s none).isSome)).length = (h.insert v idx).1.size) ∧
    (heap_order (h.remove_top).1 ∧
      ((List.range ((h.remove_top).1.maxSize + 1)).filter
        (fun s => ((h.remove_top).1.pq.getD s none).isSome)).length = (h.remove_top).1.size) ∧
    (1 ≤ h.size → heap_order (h.replace_top v idx) ∧
      ((List.range ((h.replace_top v idx).maxSize + 1)).filter
        (fun s => ((h.replace_top v idx).pq.getD s none).isSome)).length = (h.replace_top v idx).size) ∧
    (∀ c, 1 ≤ c → c ≤ h.size → pval h c ≤ pval h 1) := by
  have hins := insert_inv h v idx hwf hord
  have hrem := remove_top_inv h hwf hord
  refine ⟨⟨heapOrd_to_heap_order _ hins.2, (WF_popcount _ hins.1).1⟩,
          ⟨heapOrd_to_heap_order _ hrem.2, (WF_popcount _ hrem.1).1⟩,
          ?_, heapOrd_top_max h hord⟩
  intro hsz
  have hrep := replace_top_inv h v idx hwf hord hsz
  exact ⟨heapOrd_to_heap_order _ hrep.2, (WF_popcount _ hrep.1).1⟩

/-- Witness for C6 at a concrete well-formed heap-ordered queue over ℚ. -/
theorem C6_heap_order_after_ops_witness :
    (WF (⟨2, 4, [none, some (5 : ℚ), some 3, none, none], [none, some 0, some 1, none, none]⟩ : MaxPQ ℚ) ∧
     heapOrd (⟨2, 4, [none, some (5 : ℚ), some 3, none, none], [none, some 0, some 1, none, none]⟩ : MaxPQ ℚ)) ∧
    (∀ c, 1 ≤ c →
      c ≤ (⟨2, 4, [none, some (5 : ℚ), some 3, none, none], [none, some 0, some 1, none, none]⟩ : MaxPQ ℚ).size →
      pval (⟨2, 4, [none, some (5 : ℚ), some 3, none, none], [none, some 0, some 1, none, none]⟩ : MaxPQ ℚ) c ≤
      pval (⟨2, 4, [none, some (5 : ℚ), some 3, none, none], [none, some 0, some 1, none, none]⟩ : MaxPQ ℚ) 1) :=
  ⟨⟨by unfold WF; decide, by unfold heapOrd; decide⟩,
   (C6_heap_order_after_ops
      (⟨2, 4, [none, some (5 : ℚ), some 3, none, none], [none, some 0, some 1, none, none]⟩ : MaxPQ ℚ)
      7 9 (by unfold WF; decide) (by unfold heapOrd; decide)).2.2.2⟩

end ClaimC6

section SearchInvariant

/-- The invariant carried through a neighbour search with parameter k: the
queue is well formed and heap ordered, holds at least k elements, and has
the fixed capacity 2k. -/
def search_inv (k : ℕ) (q : MaxPQ ℝ) : Prop :=
  WF q ∧ heapOrd q ∧ k ≤ q.size ∧ q.maxSize = 2 * k

theorem getD_replicate_none {β : Type} (n i : ℕ) :
    (List.replicate n (none : Option β)).getD i none = none := by
  rw [List.getD_eq_getElem?_getD, List.getElem?_replicate]
  split <;> rfl

theorem mk0_WF (k : ℕ) : WF (MaxPQ.mk0 ℝ k) := by
  refine ⟨by simp [MaxPQ.mk0], by simp [MaxPQ.mk0], by simp [MaxPQ.mk0], ?_⟩
  intro s hs
  constructor
  · rintro ⟨hs1, hs2⟩
    simp [MaxPQ.mk0] at hs2
    omega
  · intro hs0
    exact ⟨getD_replicate_none _ _, getD_replicate_none _ _⟩

theorem mk0_heapOrd (k : ℕ) : heapOrd (MaxPQ.mk0 ℝ k) := by
  intro c hc2 hc3
  simp [MaxPQ.mk0] at hc2
  omega

/-- Folding inserts over a list: the invariants are preserved and the size
saturates at the capacity. -/
theorem foldl_insert_inv (val : ℕ → ℝ) :
    ∀ (sample : List ℕ) (q : MaxPQ ℝ), WF q → heapOrd q →
      WF (sample.foldl (fun q j => (q.insert (val j) j).1) q) ∧
      heapOrd (sample.foldl (fun q j => (q.insert (val j) j).1) q) ∧
      (sample.foldl (fun q j => (q.insert (val j) j).1) q).maxSize = q.maxSize ∧
      (sample.foldl (fun q j => (q.insert (val j) j).1) q).size =
        min (q.size + sample.length) q.maxSize := by
  intro sample
  induction sample with
  | nil =>
    intro q hwf hord
    have := hwf.2.2.1
    exact ⟨hwf, hord, rfl, by simp; omega⟩
  | cons j rest ih =>
    intro q hwf hord
    simp only [List.foldl_cons, List.length_cons]
    have hins := insert_inv q (val j) j hwf hord
    have hsz := insert_size q (val j) j
    have hrest := ih (q.insert (val j) j).1 hins.1 hins.2
    have hsm := hwf.2.2.1
    refine ⟨hrest.1, hrest.2.1, by rw [hrest.2.2.1, hsz.2], ?_⟩
    rw [hrest.2.2.2, hsz.1, hsz.2]
    split
    · next hlt => omega
    · next hge => omega

theorem seed_pq_inv (X : List (List ℝ)) (i k : ℕ) (sample : List ℕ)
    (hlen : sample.length = k) (hk : 1 ≤ k) :
    search_inv k (seed_pq X i k sample) ∧ (seed_pq X i k sample).size = k := by
  have hfold := foldl_insert_inv (fun j => dist_squared (X.getD i []) (X.getD j []))
    sample (MaxPQ.mk0 ℝ k) (mk0_WF k) (mk0_heapOrd k)
  have hmax : (MaxPQ.mk0 ℝ k).maxSize = 2 * k := rfl
  have hsz0 : (MaxPQ.mk0 ℝ k).size = 0 := rfl
  rw [hmax, hsz0, hlen] at hfold
  have hsize : (seed_pq X i k sample).size = k := by
    rw [seed_pq]
    rw [hfold.2.2.2]
    omega
  exact ⟨⟨hfold.1, hfold.2.1, by omega, hfold.2.2.1⟩, hsize⟩

theorem shrink_loop_inv (k : ℕ) (d : ℝ) :
    ∀ q : MaxPQ ℝ, search_inv k q → search_inv k (shrink_loop k d q) := by
  have H : ∀ (n : ℕ) (q : MaxPQ ℝ), q.size = n → search_inv k q →
      search_inv k (shrink_loop k d q) := by
    intro n
    induction n using Nat.strong_induction_on with
    | _ n ihn =>
      intro q hq hinv
      rw [shrink_loop]
      split
      · next hc =>
        have hrem := remove_top_inv q hinv.1 hinv.2.1
        have hsz := remove_top_size q
        refine ihn ((q.remove_top).1.size) (by omega) _ rfl
          ⟨hrem.1, hrem.2, by omega, by rw [hsz.2]; exact hinv.2.2.2⟩
      · next => exact hinv
  exact fun q => H q.size q rfl

theorem processPoint_inv (k : ℕ) (x : List ℝ) (xi : Option ℕ) (hk : 1 ≤ k) :
    ∀ (q : MaxPQ ℝ) (jy : ℕ × List ℝ), search_inv k q →
      search_inv k (processPoint k x xi q jy) := by
  intro q jy hinv
  rw [processPoint]
  dsimp only
  split
  · exact hinv
  · split
    · have hq1 := shrink_loop_inv k (dist_squared x jy.2) q hinv
      split
      · next hlt =>
        have hrep := replace_top_inv _ (dist_squared x jy.2) jy.1 hq1.1 hq1.2.1 (by
          have := hq1.2.2.1
          omega)
        have hsz := replace_top_size (shrink_loop k (dist_squared x jy.2) q)
          (dist_squared x jy.2) jy.1
        exact ⟨hrep.1, hrep.2, by rw [hsz.1]; exact hq1.2.2.1, by rw [hsz.2]; exact hq1.2.2.2⟩
      · split
        · next heq =>
          have hins := insert_inv _ (dist_squared x jy.2) jy.1 hq1.1 hq1.2.1
          have hsz := insert_size (shrink_loop k (dist_squared x jy.2) q)
            (dist_squared x jy.2) jy.1
          refine ⟨hins.1, hins.2, ?_, by rw [hsz.2]; exact hq1.2.2.2⟩
          rw [hsz.1]
          have := hq1.2.2.1
          split <;> omega
        · exact hq1
    · exact hinv

theorem find_NN_inv (x : List ℝ) (k : ℕ) (hk : 1 ≤ k) :
    ∀ (ball : Ball ℝ) (q : MaxPQ ℝ) (xi : Option ℕ), search_inv k q →
      search_inv k (find_NN x k ball q xi) := by
  intro ball
  induction ball with
  | NodeBall c r l rt ihl ihr =>
    intro q xi hinv
    simp only [find_NN]
    split
    · split
      · exact ihl q xi hinv
      · exact ihr _ xi (ihl q xi hinv)
    · split
      · exact ihr q xi hinv
      · exact ihl _ xi (ihr q xi hinv)
  | LeafBall c r data indices =>
    intro q xi hinv
    simp only [find_NN]
    exact foldl_invariant (search_inv k) _ _ _ hinv
      (fun acc p hacc => processPoint_inv k x xi hk acc p hacc)

theorem real_default_eq : (default : ℝ) = 0 := rfl

/-- A successful fit stores the data and the tree built over all indices. -/
theorem fit_valid_eq (X : List (List ℝ)) (h1 : X ≠ []) (h2 : (X.getD 0 []).length ≠ 0) :
    fit ⟨none, none⟩ (PyInput.arr2d X) =
      (⟨some (build_ball_tree X (List.range X.length)), some X⟩, FitExit.ok) := by
  rw [fit]
  rw [if_pos ⟨List.length_pos.mpr h1, Nat.pos_of_ne_zero h2⟩]

end SearchInvariant

section ClaimC5

/-- C5: on a fitted point set with N points, for every 0 <= i < N and
0 < k < N and every choice of k distinct sample indices different from i,
get_neighborhood(i, k) succeeds and returns the populated heap slots: the
distances are the square roots of the squared distances stored in pq[1..size]
(the neighbor indices come from indices[1..size]), the number of returned
pairs is between k and 2k, and the first returned distance — the square
root of the heap top — is the maximum of all returned distances, the
point's current k-distance. -/
theorem C5_get_neighborhood_shape (X : List (List ℝ)) (i k : ℤ) (sample : List ℕ)
    (hX1 : X ≠ []) (hX2 : (X.getD 0 []).length ≠ 0)
    (hk : 0 < k) (hkN : k < (X.length : ℤ)) (hi0 : 0 ≤ i) (hiN : i < (X.length : ℤ))
    (hslen : sample.length = k.toNat) (hnodup : sample.Nodup)
    (hsm : ∀ j ∈ sample, (j : ℤ) ≠ i ∧ j < X.length) :
    ∃ nb ds,
      (get_neighborhood (fit ⟨none, none⟩ (PyInput.arr2d X)).1 i k sample).2 = some (nb, ds) ∧
      ds = (((search_pq X (build_ball_tree X (List.range X.length)) i.toNat k.toNat sample).pq.drop 1).take
            (search_pq X (build_ball_tree X (List.range X.length)) i.toNat k.toNat sample).size).map
            (fun o => Real.sqrt (o.getD 0)) ∧
      nb = (((search_pq X (build_ball_tree X (List.range X.length)) i.toNat k.toNat sample).indices.drop 1).take
            (search_pq X (build_ball_tree X (List.range X.length)) i.toNat k.toNat sample).size).map
            (fun o => o.getD 0) ∧
      k.toNat ≤ ds.length ∧ ds.length ≤ 2 * k.toNat ∧ nb.length = ds.length ∧
      (∀ d ∈ ds, d ≤ ds.getD 0 0) := by
  have hk1 : 1 ≤ k.toNat := by omega
  have hfit := fit_valid_eq X hX1 hX2
  rw [hfit]
  simp only [get_neighborhood]
  rw [if_pos ⟨hk, hkN, hi0, hiN⟩]
  have hinv0 := (seed_pq_inv X i.toNat k.toNat sample hslen hk1).1
  have hinv := find_NN_inv (X.getD i.toNat []) k.toNat hk1
    (build_ball_tree X (List.range X.length)) (seed_pq X i.toNat k.toNat sample)
    (some i.toNat) hinv0
  set q := search_pq X (build_ball_tree X (List.range X.length)) i.toNat k.toNat sample with hq
  have hinvq : search_inv k.toNat q := hinv
  obtain ⟨hwf, hord, hks, hmax2k⟩ := hinvq
  have hlenpq : q.pq.length = 2 * k.toNat + 1 := by rw [hwf.1, hmax2k]
  have hlenix : q.indices.length = 2 * k.toNat + 1 := by rw [hwf.2.1, hmax2k]
  have hsize2k : q.size ≤ 2 * k.toNat := by have := hwf.2.2.1; omega
  refine ⟨(neighborhood_core X (build_ball_tree X (List.range X.length)) i.toNat k.toNat sample).1,
          (neighborhood_core X (build_ball_tree X (List.range X.length)) i.toNat k.toNat sample).2,
          rfl, rfl, rfl, ?_, ?_, ?_, ?_⟩
  · show k.toNat ≤ (((q.pq.drop 1).take q.size).map (fun o => Real.sqrt (o.getD 0))).length
    rw [List.length_map, List.length_take, List.length_drop, hlenpq]
    omega
  · show (((q.pq.drop 1).take q.size).map (fun o => Real.sqrt (o.getD 0))).length ≤ 2 * k.toNat
    rw [List.length_map, List.length_take, List.length_drop, hlenpq]
    omega
  · show (((q.indices.drop 1).take q.size).map (fun o => o.getD 0)).length =
        (((q.pq.drop 1).take q.size).map (fun o => Real.sqrt (o.getD 0))).length
    rw [List.length_map, List.length_take, List.length_drop, hlenix,
        List.length_map, List.length_take, List.length_drop, hlenpq]
  · show ∀ d ∈ ((q.pq.drop 1).take q.size).map (fun o => Real.sqrt (o.getD 0)),
      d ≤ (((q.pq.drop 1).take q.size).map (fun o => Real.sqrt (o.getD 0))).getD 0 0
    have hdslen : (((q.pq.drop 1).take q.size).map (fun o => Real.sqrt (o.getD 0))).length = q.size := by
      rw [List.length_map, List.length_take, List.length_drop, hlenpq]
      omega
    have helem : ∀ m, m < q.size →
        (((q.pq.drop 1).take q.size).map (fun o => Real.sqrt (o.getD 0))).getD m 0 =
          Real.sqrt (pval q (m + 1)) := by
      intro m hm
      have h1m : 1 + m < q.pq.length := by omega
      have hm1 : m + 1 < q.pq.length := by omega
      rw [List.getD_eq_getElem?_getD, List.getElem?_map, List.getElem?_take, if_pos hm,
          List.getElem?_drop, List.getElem?_eq_getElem h1m]
      rw [pval, real_default_eq, List.getD_eq_getElem?_getD, List.getElem?_eq_getElem hm1]
      have hidx : 1 + m = m + 1 := by omega
      simp only [Option.map_some', Option.getD_some, hidx]
    intro d hd
    rcases List.mem_iff_getElem.mp hd with ⟨m, hm, hdm⟩
    have hm2 : m < q.size := by rwa [hdslen] at hm
    have hd0 : (((q.pq.drop 1).take q.size).map (fun o => Real.sqrt (o.getD 0))).getD 0 0 =
        Real.sqrt (pval q 1) := by simpa using helem 0 (by omega)
    have hdv : d = Real.sqrt (pval q (m + 1)) := by
      rw [← helem m hm2, List.getD_eq_getElem _ _ hm, hdm]
    rw [hdv, hd0]
    exact Real.sqrt_le_sqrt (heapOrd_top_max q hord (m + 1) (by omega) (by omega))

/-- Witness for C5 on the concrete data set [[0], [1], [2]] with i = 0,
k = 1 and the sample [2]. -/
theorem C5_get_neighborhood_shape_witness :
    (([[(0 : ℝ)], [1], [2]] : List (List ℝ)) ≠ [] ∧
      (([[(0 : ℝ)], [1], [2]] : List (List ℝ)).getD 0 []).length ≠ 0 ∧
      (0 : ℤ) < 1 ∧ (1 : ℤ) < (([[(0 : ℝ)], [1], [2]] : List (List ℝ)).length : ℤ) ∧
      (0 : ℤ) ≤ 0 ∧ (0 : ℤ) < (([[(0 : ℝ)], [1], [2]] : List (List ℝ)).length : ℤ) ∧
      ([2] : List ℕ).length = (1 : ℤ).toNat ∧ ([2] : List ℕ).Nodup ∧
      (∀ j ∈ ([2] : List ℕ), (j : ℤ) ≠ 0 ∧ j < ([[(0 : ℝ)], [1], [2]] : List (List ℝ)).length)) ∧
    (∃ nb ds,
      (get_neighborhood (fit ⟨none, none⟩ (PyInput.arr2d [[(0 : ℝ)], [1], [2]])).1 0 1 [2]).2 =
        some (nb, ds) ∧
      ds = (((search_pq [[(0 : ℝ)], [1], [2]]
              (build_ball_tree [[(0 : ℝ)], [1], [2]] (List.range ([[(0 : ℝ)], [1], [2]] : List (List ℝ)).length))
              (0 : ℤ).toNat (1 : ℤ).toNat [2]).pq.drop 1).take
            (search_pq [[(0 : ℝ)], [1], [2]]
              (build_ball_tree [[(0 : ℝ)], [1], [2]] (List.range ([[(0 : ℝ)], [1], [2]] : List (List ℝ)).length))
              (0 : ℤ).toNat (1 : ℤ).toNat [2]).size).map (fun o => Real.sqrt (o.getD 0)) ∧
      nb = (((search_pq [[(0 : ℝ)], [1], [2]]
              (build_ball_tree [[(0 : ℝ)], [1], [2]] (List.range ([[(0 : ℝ)], [1], [2]] : List (List ℝ)).length))
              (0 : ℤ).toNat (1 : ℤ).toNat [2]).indices.drop 1).take
            (search_pq [[(0 : ℝ)], [1], [2]]
              (build_ball_tree [[(0 : ℝ)], [1], [2]] (List.range ([[(0 : ℝ)], [1], [2]] : List (List ℝ)).length))
              (0 : ℤ).toNat (1 : ℤ).toNat [2]).size).map (fun o => o.getD 0) ∧
      (1 : ℤ).toNat ≤ ds.length ∧ ds.length ≤ 2 * (1 : ℤ).toNat ∧ nb.length = ds.length ∧
      (∀ d ∈ ds, d ≤ ds.getD 0 0)) :=
  ⟨⟨by simp, by simp, by decide, by simp, by decide, by simp, rfl, by simp, by simp⟩,
   C5_get_neighborhood_shape [[(0 : ℝ)], [1], [2]] 0 1 [2] (by simp) (by simp) (by decide)
     (by simp) (by decide) (by simp) rfl (by simp) (by simp)⟩

end ClaimC5

section PairedSlots

/-- A joint relation between the two arrays, slot by slot.  The queue
operations always move pq and indices entries in lockstep, so any such
relation that the touched pairs satisfy is preserved. -/
def slots_rel (R : Option ℝ → Option ℕ → Prop) (h : MaxPQ ℝ) : Prop :=
  ∀ s : ℕ, R (h.pq.getD s none) (h.indices.getD s none)

theorem slots_rel_exch (R : Option ℝ → Option ℕ → Prop) (sz ms : ℕ) (h : MaxPQ ℝ)
    (hR : slots_rel R h) (hlen : h.pq.length = h.indices.length) {i j : ℕ}
    (hi : i < h.pq.length) (hj : j < h.pq.length) (hij : i ≠ j) :
    slots_rel R ⟨sz, ms, exch h.pq none i j, exch h.indices none i j⟩ := by
  intro s
  dsimp only
  by_cases hsi : i = s
  · rw [← hsi, getD_exch_fst _ _ hi, getD_exch_fst _ _ (hlen ▸ hi)]
    exact hR j
  · by_cases hsj : j = s
    · rw [← hsj, getD_exch_snd _ _ hj hij, getD_exch_snd _ _ (hlen ▸ hj) hij]
      exact hR i
    · rw [getD_exch_other _ _ hsi hsj, getD_exch_other _ _ hsi hsj]
      exact hR s

theorem slots_rel_set (R : Option ℝ → Option ℕ → Prop) (sz ms t : ℕ) (a : Option ℝ)
    (b : Option ℕ) (h : MaxPQ ℝ) (hR : slots_rel R h)
    (hlen : h.pq.length = h.indices.length) (hab : R a b) :
    slots_rel R ⟨sz, ms, h.pq.set t a, h.indices.set t b⟩ := by
  intro s
  dsimp only
  by_cases hst : t = s
  · by_cases htl : t < h.pq.length
    · rw [← hst, getD_set_self _ _ _ htl, getD_set_self _ _ _ (hlen ▸ htl)]
      exact hab
    · rw [List.set_eq_of_length_le (by omega), List.set_eq_of_length_le (by omega)]
      exact hR s
  · rw [getD_set_other _ _ _ hst, getD_set_other _ _ _ hst]
    exact hR s

theorem slots_rel_swim (R : Option ℝ → Option ℕ → Prop) :
    ∀ (i : ℕ) (h : MaxPQ ℝ), slots_rel R h → h.pq.length = h.indices.length →
      i < h.pq.length → slots_rel R (h.swim i) := by
  intro i
  induction i using Nat.strong_induction_on with
  | _ i ih =>
    intro h hR hlen hi
    rw [MaxPQ.swim]
    split
    · next hc =>
      refine ih (i / 2) (Nat.div_lt_self (by omega) (by omega)) _ ?_ ?_ ?_
      · exact slots_rel_exch R _ _ h hR hlen hi (by omega) (by omega)
      · dsimp only
        rw [exch_length, exch_length, hlen]
      · dsimp only
        rw [exch_length]
        omega
    · exact hR

theorem slots_rel_sink (R : Option ℝ → Option ℕ → Prop) :
    ∀ (h : MaxPQ ℝ) (i : ℕ), slots_rel R h → h.pq.length = h.indices.length →
      h.size < h.pq.length → slots_rel R (h.sink i) := by
  intro h i
  induction h, i using MaxPQ.sink.induct with
  | case1 h i hg hl ih =>
    intro hR hlen hsz
    rw [MaxPQ.sink, dif_pos hg, dif_pos hl]
    have hjs := MaxPQ.sink_child_spec h i hg hl
    refine ih ?_ ?_ ?_
    · exact slots_rel_exch R _ _ h hR hlen (by omega) (by omega) (by omega)
    · dsimp only
      rw [exch_length, exch_length, hlen]
    · dsimp only
      rw [exch_length]
      omega
  | case2 h i hg hl =>
    intro hR hlen hsz
    rw [MaxPQ.sink, dif_pos hg, dif_neg hl]
    exact hR
  | case3 h i hg =>
    intro hR hlen hsz
    rw [MaxPQ.sink, dif_neg hg]
    exact hR

theorem slots_rel_insert (R : Option ℝ → Option ℕ → Prop) (h : MaxPQ ℝ) (v : ℝ) (idx : ℕ)
    (hR : slots_rel R h) (hwf : WF h) (hvi : R (some v) (some idx)) :
    slots_rel R (h.insert v idx).1 := by
  obtain ⟨hl1, hl2, hsm, _⟩ := hwf
  rw [MaxPQ.insert]
  split
  · next hlt =>
    refine slots_rel_swim R (h.size + 1) _ ?_ ?_ ?_
    · exact slots_rel_set R _ _ _ _ _ h hR (by omega) hvi
    · dsimp only
      rw [List.length_set, List.length_set]
      omega
    · dsimp only
      rw [List.length_set]
      omega
  · exact hR

theorem slots_rel_remove_top (R : Option ℝ → Option ℕ → Prop) (h : MaxPQ ℝ)
    (hR : slots_rel R h) (hwf : WF h) (hnn : R none none) :
    slots_rel R (h.remove_top).1 := by
  obtain ⟨hl1, hl2, hsm, _⟩ := hwf
  rw [MaxPQ.remove_top]
  split
  · exact hR
  · next hs0 =>
    split
    · next hs1 =>
      exact slots_rel_set R _ _ _ _ _ h hR (by omega) hnn
    · next hs1 =>
      refine slots_rel_sink R _ 1 ?_ ?_ ?_
      · have hmid : slots_rel R ⟨h.size, h.maxSize, h.pq.set 1 (h.pq.getD h.size none),
            h.indices.set 1 (h.indices.getD h.size none)⟩ :=
          slots_rel_set R _ _ _ _ _ h hR (by omega) (hR h.size)
        have := slots_rel_set R (h.size - 1) h.maxSize h.size none none
          ⟨h.size, h.maxSize, h.pq.set 1 (h.pq.getD h.size none),
            h.indices.set 1 (h.indices.getD h.size none)⟩ hmid
          (by dsimp only; rw [List.length_set, List.length_set]; omega) hnn
        exact this
      · dsimp only
        rw [List.length_set, List.length_set, List.length_set, List.length_set]
        omega
      · dsimp only
        rw [List.length_set, List.length_set]
        omega

theorem slots_rel_replace_top (R : Option ℝ → Option ℕ → Prop) (h : MaxPQ ℝ) (v : ℝ)
    (idx : ℕ) (hR : slots_rel R h) (hwf : WF h) (hvi : R (some v) (some idx)) :
    slots_rel R (h.replace_top v idx) := by
  obtain ⟨hl1, hl2, hsm, _⟩ := hwf
  rw [MaxPQ.replace_top]
  refine slots_rel_sink R _ 1 ?_ ?_ ?_
  · exact slots_rel_set R _ _ _ _ _ h hR (by omega) hvi
  · dsimp only
    rw [List.length_set, List.length_set]
    omega
  · dsimp only
    rw [List.length_set]
    omega

end PairedSlots

section TreeRows

/-- Every leaf of the tree stores, pair by pair, the row number of a point of
X together with that exact row of X: the leaves never invent data. -/
def tree_rows_ok (X : List (List ℝ)) : Ball ℝ → Prop
  | .NodeBall _ _ l r => tree_rows_ok X l ∧ tree_rows_ok X r
  | .LeafBall _ _ data indices =>
    ∀ jy ∈ indices.zip data, jy.1 < X.length ∧ jy.2 = X.getD jy.1 []

theorem zip_range_rows (X : List (List ℝ)) :
    ∀ jy ∈ (List.range X.length).zip X, jy.1 < X.length ∧ jy.2 = X.getD jy.1 [] := by
  intro jy hjy
  rcases List.mem_iff_getElem.mp hjy with ⟨m, hm, he⟩
  have hml : m < X.length := by
    have h2 := hm
    simp [List.length_zip] at h2
    omega
  have hpair : jy = (m, X.getD m []) := by
    rw [← he]
    rw [List.getElem_zip]
    rw [List.getElem_range, List.getD_eq_getElem X [] hml]
  rw [hpair]
  exact ⟨hml, rfl⟩

/-- build_ball_tree only redistributes the (index, row) pairs it is given, so
a tree built over genuine rows of X has genuine rows in all its leaves. -/
theorem build_tree_rows_ok (X : List (List ℝ)) :
    ∀ (data : List (List ℝ)) (indices : List ℕ),
      (∀ jy ∈ indices.zip data, jy.1 < X.length ∧ jy.2 = X.getD jy.1 []) →
      tree_rows_ok X (build_ball_tree data indices) := by
  intro data indices
  induction data, indices using build_ball_tree.induct with
  | case1 data indices s hdeg =>
    intro hin
    rw [build_ball_tree]
    simp only [dif_pos hdeg, tree_rows_ok]
    exact hin
  | case2 data indices s hdeg p ih1 ih2 =>
    intro hin
    rw [build_ball_tree]
    simp only [dif_neg hdeg, tree_rows_ok]
    have hmem : ∀ q ∈ data.zip indices, q.2 < X.length ∧ q.1 = X.getD q.2 [] := by
      intro q hq
      have hsw : (q.2, q.1) ∈ indices.zip data := by
        rw [← List.zip_swap]
        exact List.mem_map.mpr ⟨q, hq, rfl⟩
      exact hin (q.2, q.1) hsw
    constructor
    · refine ih1 ?_
      intro jy hjy
      have hzip : (partition data indices (get_split data).1 (get_split data).2.2.2).2.2.1.zip
          (partition data indices (get_split data).1 (get_split data).2.2.2).1 =
          ((data.zip indices).filter
            (fun q => decide (q.1.getD (get_split data).1 0 < (get_split data).2.2.2))).map
            (fun q => (q.2, q.1)) := by
        simp only [partition]
        exact List.zip_map' Prod.snd Prod.fst _
      rw [hzip] at hjy
      rcases List.mem_map.mp hjy with ⟨q, hqf, hqe⟩
      have hq : q ∈ data.zip indices := List.mem_of_mem_filter hqf
      rw [← hqe]
      exact hmem q hq
    · refine ih2 ?_
      intro jy hjy
      have hzip : (partition data indices (get_split data).1 (get_split data).2.2.2).2.2.2.zip
          (partition data indices (get_split data).1 (get_split data).2.2.2).2.1 =
          ((data.zip indices).filter
            (fun q => !decide (q.1.getD (get_split data).1 0 < (get_split data).2.2.2))).map
            (fun q => (q.2, q.1)) := by
        simp only [partition]
        exact List.zip_map' Prod.snd Prod.fst _
      rw [hzip] at hjy
      rcases List.mem_map.mp hjy with ⟨q, hqf, hqe⟩
      have hq : q ∈ data.zip indices := List.mem_of_mem_filter hqf
      rw [← hqe]
      exact hmem q hq

end TreeRows

section PairedSearch

/-- The pairing discipline of the search queue for query point x over the
data set X: a populated pq slot holds exactly the squared distance from x to
the X row named by the matching indices slot, and empty slots match. -/
def Rdist (X : List (List ℝ)) (x : List ℝ) (o : Option ℝ) (oj : Option ℕ) : Prop :=
  (o = none ∧ oj = none) ∨
  ∃ v j, o = some v ∧ oj = some j ∧ j < X.length ∧ v = dist_squared x (X.getD j [])

theorem Rdist_none (X : List (List ℝ)) (x : List ℝ) : Rdist X x none none :=
  Or.inl ⟨rfl, rfl⟩

theorem mk0_paired (X : List (List ℝ)) (x : List ℝ) (k : ℕ) :
    slots_rel (Rdist X x) (MaxPQ.mk0 ℝ k) := by
  intro s
  rw [MaxPQ.mk0]
  dsimp only
  rw [getD_replicate_none, getD_replicate_none]
  exact Rdist_none X x

theorem foldl_insert_paired (X : List (List ℝ)) (x : List ℝ) :
    ∀ (sample : List ℕ) (q : MaxPQ ℝ), WF q → heapOrd q →
      (∀ j ∈ sample, j < X.length) → slots_rel (Rdist X x) q →
      slots_rel (Rdist X x)
        (sample.foldl (fun q j => (q.insert (dist_squared x (X.getD j [])) j).1) q) := by
  intro sample
  induction sample with
  | nil =>
    intro q hwf hord hm hp
    exact hp
  | cons j rest ih =>
    intro q hwf hord hm hp
    simp only [List.foldl_cons]
    have hins := insert_inv q (dist_squared x (X.getD j [])) j hwf hord
    refine ih _ hins.1 hins.2 (fun a ha => hm a (List.mem_cons_of_mem j ha)) ?_
    exact slots_rel_insert (Rdist X x) q _ j hp hwf
      (Or.inr ⟨dist_squared x (X.getD j []), j, rfl, rfl, hm j (List.mem_cons_self j rest), rfl⟩)

theorem seed_pq_paired (X : List (List ℝ)) (i k : ℕ) (sample : List ℕ)
    (hm : ∀ j ∈ sample, j < X.length) :
    slots_rel (Rdist X (X.getD i [])) (seed_pq X i k sample) := by
  rw [seed_pq]
  exact foldl_insert_paired X (X.getD i []) sample (MaxPQ.mk0 ℝ k) (mk0_WF k) (mk0_heapOrd k)
    hm (mk0_paired X (X.getD i []) k)

theorem shrink_loop_paired (X : List (List ℝ)) (x : List ℝ) (k : ℕ) (d : ℝ) :
    ∀ q : MaxPQ ℝ, search_inv k q → slots_rel (Rdist X x) q →
      slots_rel (Rdist X x) (shrink_loop k d q) := by
  have H : ∀ (n : ℕ) (q : MaxPQ ℝ), q.size = n → search_inv k q → slots_rel (Rdist X x) q →
      slots_rel (Rdist X x) (shrink_loop k d q) := by
    intro n
    induction n using Nat.strong_induction_on with
    | _ n ihn =>
      intro q hq hinv hp
      rw [shrink_loop]
      split
      · next hc =>
        have hrem := remove_top_inv q hinv.1 hinv.2.1
        have hsz := remove_top_size q
        have hprem := slots_rel_remove_top (Rdist X x) q hp hinv.1 (Rdist_none X x)
        refine ihn ((q.remove_top).1.size) (by omega) _ rfl
          ⟨hrem.1, hrem.2, by omega, by rw [hsz.2]; exact hinv.2.2.2⟩ hprem
      · next => exact hp
  exact fun q => H q.size q rfl

theorem processPoint_paired (X : List (List ℝ)) (k : ℕ) (x : List ℝ) (xi : Option ℕ)
    (q : MaxPQ ℝ) (jy : ℕ × List ℝ) (hinv : search_inv k q)
    (hp : slots_rel (Rdist X x) q) (hj1 : jy.1 < X.length) (hj2 : jy.2 = X.getD jy.1 []) :
    slots_rel (Rdist X x) (processPoint k x xi q jy) := by
  have hpair : Rdist X x (some (dist_squared x jy.2)) (some jy.1) :=
    Or.inr ⟨dist_squared x jy.2, jy.1, rfl, rfl, hj1, by rw [hj2]⟩
  rw [processPoint]
  dsimp only
  split
  · exact hp
  · split
    · have hq1 := shrink_loop_inv k (dist_squared x jy.2) q hinv
      have hp1 := shrink_loop_paired X x k (dist_squared x jy.2) q hinv hp
      split
      · exact slots_rel_replace_top (Rdist X x) _ (dist_squared x jy.2) jy.1 hp1 hq1.1 hpair
      · split
        · exact slots_rel_insert (Rdist X x) _ (dist_squared x jy.2) jy.1 hp1 hq1.1 hpair
        · exact hp1
    · exact hp

theorem foldl_invariant_mem {β γ : Type} (P : γ → Prop) (f : γ → β → γ) :
    ∀ (l : List β) (init : γ), P init → (∀ b ∈ l, ∀ acc, P acc → P (f acc b)) →
      P (l.foldl f init) := by
  intro l
  induction l with
  | nil =>
    intro init h0 hstep
    exact h0
  | cons b bs ih =>
    intro init h0 hstep
    exact ih (f init b) (hstep b (List.mem_cons_self b bs) init h0)
      (fun c hc acc hacc => hstep c (List.mem_cons_of_mem b hc) acc hacc)

theorem find_NN_paired (X : List (List ℝ)) (x : List ℝ) (k : ℕ) (hk : 1 ≤ k) :
    ∀ (ball : Ball ℝ), tree_rows_ok X ball →
      ∀ (q : MaxPQ ℝ) (xi : Option ℕ), search_inv k q → slots_rel (Rdist X x) q →
        slots_rel (Rdist X x) (find_NN x k ball q xi) := by
  intro ball
  induction ball with
  | NodeBall c r l rt ihl ihr =>
    intro hrows q xi hinv hp
    simp only [find_NN]
    split
    · split
      · exact ihl hrows.1 q xi hinv hp
      · exact ihr hrows.2 _ xi (find_NN_inv x k hk l q xi hinv) (ihl hrows.1 q xi hinv hp)
    · split
      · exact ihr hrows.2 q xi hinv hp
      · exact ihl hrows.1 _ xi (find_NN_inv x k hk rt q xi hinv) (ihr hrows.2 q xi hinv hp)
  | LeafBall c r data indices =>
    intro hrows q xi hinv hp
    simp only [find_NN]
    have := foldl_invariant_mem (fun h => search_inv k h ∧ slots_rel (Rdist X x) h)
      (processPoint k x xi) (indices.zip data) q ⟨hinv, hp⟩
      (fun jy hjy acc hacc => ⟨processPoint_inv k x xi hk acc jy hacc.1,
        processPoint_paired X k x xi acc jy hacc.1 hacc.2
          (hrows jy hjy).1 (hrows jy hjy).2⟩)
    exact this.2

theorem search_pq_paired (X : List (List ℝ)) (tree : Ball ℝ) (i k : ℕ) (sample : List ℕ)
    (hk : 1 ≤ k) (hslen : sample.length = k) (hsmem : ∀ j ∈ sample, j < X.length)
    (htree : tree_rows_ok X tree) :
    slots_rel (Rdist X (X.getD i [])) (search_pq X tree i k sample) := by
  rw [search_pq]
  exact find_NN_paired X (X.getD i []) k hk tree htree (seed_pq X i k sample) (some i)
    (seed_pq_inv X i k sample hslen hk).1 (seed_pq_paired X i k sample hsmem)

end PairedSearch

section LRDSpecDefs

/-- The neighbour lists of get_LOF on a fitted data set: pass 1's neighbors
list, one list of row indices per point. -/
noncomputable def lof_neighbors (X : List (List ℝ)) (k : ℕ) (samples : List (List ℕ)) :
    List (List ℕ) :=
  (lof_pass1 X (build_ball_tree X (List.range X.length)) k samples).1

/-- Pass 1's distances list, one list of Euclidean distances per point. -/
noncomputable def lof_distances (X : List (List ℝ)) (k : ℕ) (samples : List (List ℕ)) :
    List (List ℝ) :=
  (lof_pass1 X (build_ball_tree X (List.range X.length)) k samples).2

/-- The k-distance of point j as the claim words it: the first (largest)
stored distance of j's neighbourhood. -/
noncomputable def kdist (distances : List (List ℝ)) (j : ℕ) : ℝ :=
  (distances.getD j []).getD 0 0

/-- The local reachability density as the claim words it:
|neighbors(i)| / (sum over j in neighbors(i) of max(k-distance(j), dist(i, j))),
with dist(i, j) the Euclidean distance between rows i and j of X. -/
noncomputable def lrd_spec (X : List (List ℝ)) (neighbors : List (List ℕ))
    (distances : List (List ℝ)) (i : ℕ) : ℝ :=
  ((neighbors.getD i []).length : ℝ) /
    (((neighbors.getD i []).map (fun j =>
      max (kdist distances j) (Real.sqrt (dist_squared (X.getD i []) (X.getD j []))))).sum)

end LRDSpecDefs

section LOFSliceLemmas

theorem range_map_getD {β : Type} (n i : ℕ) (f : ℕ → β) (d : β) (hi : i < n) :
    ((List.range n).map f).getD i d = f i := by
  rw [List.getD_eq_getElem?_getD, List.getElem?_map, List.getElem?_range hi]
  rfl

theorem enumFrom_map_sum (f : ℕ × ℕ → ℝ) (g : ℕ → ℝ) :
    ∀ (l : List ℕ) (n : ℕ), (∀ c, c < l.length → f (n + c, l.getD c 0) = g (l.getD c 0)) →
      ((l.enumFrom n).map f).sum = (l.map g).sum := by
  intro l
  induction l with
  | nil =>
    intro n h
    rfl
  | cons a as ih =>
    intro n h
    have hcons : (a :: as).enumFrom n = (n, a) :: as.enumFrom (n + 1) := rfl
    rw [hcons, List.map_cons, List.map_cons, List.sum_cons, List.sum_cons]
    have h0 : f (n, a) = g a := by
      have h00 := h 0 (by rw [List.length_cons]; omega)
      rw [Nat.add_zero] at h00
      exact h00
    rw [h0]
    congr 1
    refine ih (n + 1) ?_
    intro c hc
    have hc1 := h (c + 1) (by rw [List.length_cons]; omega)
    have hadd : n + (c + 1) = n + 1 + c := by omega
    rw [hadd] at hc1
    simpa [List.getD_cons_succ] using hc1

/-- The neighbour and distance slices of one search are in lockstep: the
c-th returned neighbour is a genuine row number of X and the c-th returned
distance is exactly the Euclidean distance from the query row to that row. -/
theorem neighborhood_core_pairs (X : List (List ℝ)) (tree : Ball ℝ) (i k : ℕ)
    (sample : List ℕ) (hk : 1 ≤ k) (hslen : sample.length = k)
    (hsmem : ∀ j ∈ sample, j < X.length) (htree : tree_rows_ok X tree) :
    (neighborhood_core X tree i k sample).2.length =
      (neighborhood_core X tree i k sample).1.length ∧
    k ≤ (neighborhood_core X tree i k sample).1.length ∧
    ∀ c, c < (neighborhood_core X tree i k sample).1.length →
      (neighborhood_core X tree i k sample).1.getD c 0 < X.length ∧
      (neighborhood_core X tree i k sample).2.getD c 0 =
        Real.sqrt (dist_squared (X.getD i [])
          (X.getD ((neighborhood_core X tree i k sample).1.getD c 0) [])) := by
  have hinv : search_inv k (search_pq X tree i k sample) :=
    find_NN_inv (X.getD i []) k hk tree (seed_pq X i k sample) (some i)
      (seed_pq_inv X i k sample hslen hk).1
  have hpairs := search_pq_paired X tree i k sample hk hslen hsmem htree
  have hnb : (neighborhood_core X tree i k sample).1 =
      (((search_pq X tree i k sample).indices.drop 1).take
        (search_pq X tree i k sample).size).map (fun o => o.getD 0) := rfl
  have hds : (neighborhood_core X tree i k sample).2 =
      (((search_pq X tree i k sample).pq.drop 1).take
        (search_pq X tree i k sample).size).map (fun o => Real.sqrt (o.getD 0)) := rfl
  set q := search_pq X tree i k sample with hq
  obtain ⟨hwf, hord, hks, hmax2k⟩ := hinv
  have hlenpq : q.pq.length = 2 * k + 1 := by rw [hwf.1, hmax2k]
  have hlenix : q.indices.length = 2 * k + 1 := by rw [hwf.2.1, hmax2k]
  have hsize2k : q.size ≤ 2 * k := by have := hwf.2.2.1; omega
  have hnblen : (neighborhood_core X tree i k sample).1.length = q.size := by
    rw [hnb, List.length_map, List.length_take, List.length_drop, hlenix]
    omega
  have hdslen : (neighborhood_core X tree i k sample).2.length = q.size := by
    rw [hds, List.length_map, List.length_take, List.length_drop, hlenpq]
    omega
  refine ⟨by rw [hnblen, hdslen], by rw [hnblen]; exact hks, ?_⟩
  intro c hc
  rw [hnblen] at hc
  have h1c : 1 + c < q.indices.length := by omega
  have hc1 : c + 1 < q.indices.length := by omega
  have h1cp : 1 + c < q.pq.length := by omega
  have hc1p : c + 1 < q.pq.length := by omega
  have hidx : 1 + c = c + 1 := by omega
  have hnbel : (neighborhood_core X tree i k sample).1.getD c 0 =
      (q.indices.getD (c + 1) none).getD 0 := by
    rw [hnb, List.getD_eq_getElem?_getD, List.getElem?_map, List.getElem?_take, if_pos hc,
        List.getElem?_drop, List.getElem?_eq_getElem h1c]
    rw [List.getD_eq_getElem?_getD, List.getElem?_eq_getElem hc1]
    simp only [Option.map_some', Option.getD_some, hidx]
  have hdsel : (neighborhood_core X tree i k sample).2.getD c 0 =
      Real.sqrt ((q.pq.getD (c + 1) none).getD 0) := by
    rw [hds, List.getD_eq_getElem?_getD, List.getElem?_map, List.getElem?_take, if_pos hc,
        List.getElem?_drop, List.getElem?_eq_getElem h1cp]
    rw [List.getD_eq_getElem?_getD, List.getElem?_eq_getElem hc1p]
    simp only [Option.map_some', Option.getD_some, hidx]
  have hrd := hpairs (c + 1)
  have hpop := (hwf.2.2.2 (c + 1) (by omega)).1 ⟨by omega, by omega⟩
  rcases hrd with ⟨hn, _⟩ | ⟨v, j, hv, hj, hjlen, hvd⟩
  · rw [hn] at hpop
    exact absurd hpop.1 (by simp)
  · constructor
    · rw [hnbel, hj]
      exact hjlen
    · rw [hdsel, hnbel, hv, hj]
      simp only [Option.getD_some]
      rw [hvd]

end LOFSliceLemmas

section LOFPassLemmas

theorem lof_neighbors_getD (X : List (List ℝ)) (k : ℕ) (samples : List (List ℕ)) (i : ℕ)
    (hi : i < X.length) :
    (lof_neighbors X k samples).getD i [] =
      (neighborhood_core X (build_ball_tree X (List.range X.length)) i k
        (samples.getD i [])).1 := by
  simp only [lof_neighbors, lof_pass1]
  rw [List.map_map]
  exact range_map_getD X.length i _ [] hi

theorem lof_distances_getD (X : List (List ℝ)) (k : ℕ) (samples : List (List ℕ)) (i : ℕ)
    (hi : i < X.length) :
    (lof_distances X k samples).getD i [] =
      (neighborhood_core X (build_ball_tree X (List.range X.length)) i k
        (samples.getD i [])).2 := by
  simp only [lof_distances, lof_pass1]
  rw [List.map_map]
  exact range_map_getD X.length i _ [] hi

theorem lof_pass2_getD (neighbors : List (List ℕ)) (distances : List (List ℝ)) (n i : ℕ)
    (hi : i < n) :
    (lof_pass2 neighbors distances n).getD i 0 =
      ((neighbors.getD i []).length : ℝ) /
        (((neighbors.getD i []).enum.map (fun cj =>
          max ((distances.getD cj.2 []).getD 0 0) ((distances.getD i []).getD cj.1 0))).sum) := by
  rw [lof_pass2]
  exact range_map_getD n i _ 0 hi

theorem lof_pass3_getD (neighbors : List (List ℕ)) (lrd : List ℝ) (n i : ℕ) (hi : i < n) :
    (lof_pass3 neighbors lrd n).getD i 0 =
      (((neighbors.getD i []).map (fun j => lrd.getD j 0)).sum / lrd.getD i 0) /
        ((neighbors.getD i []).length : ℝ) := by
  rw [lof_pass3]
  exact range_map_getD n i _ 0 hi

theorem lof_neighbors_mem (X : List (List ℝ)) (k : ℕ) (samples : List (List ℕ))
    (hk : 1 ≤ k) (hslen : ∀ i, i < X.length → (samples.getD i []).length = k)
    (hsmem : ∀ i, i < X.length → ∀ j ∈ samples.getD i [], j < X.length) :
    ∀ i, i < X.length → ∀ j ∈ (lof_neighbors X k samples).getD i [], j < X.length := by
  have htree := build_tree_rows_ok X X (List.range X.length) (zip_range_rows X)
  intro i hi j hj
  rw [lof_neighbors_getD X k samples i hi] at hj
  rcases List.mem_iff_getElem.mp hj with ⟨c, hc, he⟩
  have hfact := (neighborhood_core_pairs X (build_ball_tree X (List.range X.length)) i k
    (samples.getD i []) hk (hslen i hi) (hsmem i hi) htree).2.2 c hc
  have h1 := hfact.1
  rw [List.getD_eq_getElem _ _ hc, he] at h1
  exact h1

/-- The body of get_LOF's local reachability pass agrees, point by point,
with the claim's formula: the distance the code reads back from distances[i]
at position count is the true Euclidean distance from i to the neighbour
stored at that position. -/
theorem lof_pass2_eq_spec (X : List (List ℝ)) (k : ℕ) (samples : List (List ℕ))
    (hk : 1 ≤ k) (hslen : ∀ i, i < X.length → (samples.getD i []).length = k)
    (hsmem : ∀ i, i < X.length → ∀ j ∈ samples.getD i [], j < X.length) :
    ∀ i, i < X.length →
      (lof_pass2 (lof_neighbors X k samples) (lof_distances X k samples) X.length).getD i 0 =
        lrd_spec X (lof_neighbors X k samples) (lof_distances X k samples) i := by
  have htree := build_tree_rows_ok X X (List.range X.length) (zip_range_rows X)
  intro i hi
  have hpairs := neighborhood_core_pairs X (build_ball_tree X (List.range X.length)) i k
    (samples.getD i []) hk (hslen i hi) (hsmem i hi) htree
  rw [lof_pass2_getD _ _ _ i hi, lrd_spec, lof_neighbors_getD X k samples i hi]
  congr 1
  have henum : (neighborhood_core X (build_ball_tree X (List.range X.length)) i k
      (samples.getD i [])).1.enum =
      (neighborhood_core X (build_ball_tree X (List.range X.length)) i k
      (samples.getD i [])).1.enumFrom 0 := rfl
  rw [henum]
  refine enumFrom_map_sum _ _ _ 0 ?_
  intro c hc
  rw [Nat.zero_add]
  dsimp only
  rw [lof_distances_getD X k samples i hi, kdist]
  congr 1
  exact (hpairs.2.2 c hc).2

end LOFPassLemmas

section ClaimC4

/-- C4: on a fitted point set with N points and 0 < k < N (one sample list
of k valid row numbers per point), get_LOF succeeds and returns one value
per point; its local reachability pass computes for each point i exactly
lrd(i) = |neighbors(i)| / sum over j in neighbors(i) of
max(k-distance(j), dist(i, j)), where k-distance(j) is the first (largest)
stored distance of j's neighbourhood and dist(i, j) is the true Euclidean
distance between rows i and j; and the returned value for each i is
(sum over j in neighbors(i) of lrd(j)) / (lrd(i) * |neighbors(i)|). -/
theorem C4_get_LOF_formulas (X : List (List ℝ)) (k : ℤ) (samples : List (List ℕ))
    (hX1 : X ≠ []) (hX2 : (X.getD 0 []).length ≠ 0)
    (hk : 0 < k) (hkN : k < (X.length : ℤ))
    (hslen : ∀ i, i < X.length → (samples.getD i []).length = k.toNat)
    (hsmem : ∀ i, i < X.length → ∀ j ∈ samples.getD i [], j < X.length) :
    ∃ out, (get_LOF (fit ⟨none, none⟩ (PyInput.arr2d X)).1 k samples).2 = some out ∧
      out.length = X.length ∧
      ∀ i, i < X.length →
        (lof_pass2 (lof_neighbors X k.toNat samples) (lof_distances X k.toNat samples)
            X.length).getD i 0 =
          lrd_spec X (lof_neighbors X k.toNat samples) (lof_distances X k.toNat samples) i ∧
        out.getD i 0 =
          (((lof_neighbors X k.toNat samples).getD i []).map (fun j =>
            lrd_spec X (lof_neighbors X k.toNat samples)
              (lof_distances X k.toNat samples) j)).sum /
          (lrd_spec X (lof_neighbors X k.toNat samples) (lof_distances X k.toNat samples) i *
            (((lof_neighbors X k.toNat samples).getD i []).length : ℝ)) := by
  have hk1 : 1 ≤ k.toNat := by omega
  have hfit := fit_valid_eq X hX1 hX2
  rw [hfit]
  simp only [get_LOF]
  rw [if_pos ⟨hk, hkN⟩]
  have hA : (lof_pass1 X (build_ball_tree X (List.range X.length)) k.toNat samples).1 =
      lof_neighbors X k.toNat samples := rfl
  have hB : (lof_pass1 X (build_ball_tree X (List.range X.length)) k.toNat samples).2 =
      lof_distances X k.toNat samples := rfl
  rw [hA, hB]
  have hp2 := lof_pass2_eq_spec X k.toNat samples hk1 hslen hsmem
  refine ⟨_, rfl, ?_, ?_⟩
  · rw [lof_pass3]
    rw [List.length_map, List.length_range]
  · intro i hi
    refine ⟨hp2 i hi, ?_⟩
    rw [lof_pass3_getD _ _ X.length i hi]
    have hmap : ((lof_neighbors X k.toNat samples).getD i []).map (fun j =>
        (lof_pass2 (lof_neighbors X k.toNat samples) (lof_distances X k.toNat samples)
          X.length).getD j 0) =
        ((lof_neighbors X k.toNat samples).getD i []).map (fun j =>
          lrd_spec X (lof_neighbors X k.toNat samples) (lof_distances X k.toNat samples) j) := by
      refine List.map_congr_left ?_
      intro j hj
      exact hp2 j (lof_neighbors_mem X k.toNat samples hk1 hslen hsmem i hi j hj)
    rw [hmap, hp2 i hi, div_div]

/-- Witness for C4 on the concrete data set [[0], [1], [2]] with k = 1 and
the per-point samples [[1], [0], [1]]. -/
theorem C4_get_LOF_formulas_witness :
    (([[(0 : ℝ)], [1], [2]] : List (List ℝ)) ≠ [] ∧
      (([[(0 : ℝ)], [1], [2]] : List (List ℝ)).getD 0 []).length ≠ 0 ∧
      (0 : ℤ) < 1 ∧ (1 : ℤ) < (([[(0 : ℝ)], [1], [2]] : List (List ℝ)).length : ℤ) ∧
      (∀ i, i < ([[(0 : ℝ)], [1], [2]] : List (List ℝ)).length →
        (([[1], [0], [1]] : List (List ℕ)).getD i []).length = (1 : ℤ).toNat) ∧
      (∀ i, i < ([[(0 : ℝ)], [1], [2]] : List (List ℝ)).length →
        ∀ j ∈ ([[1], [0], [1]] : List (List ℕ)).getD i [],
          j < ([[(0 : ℝ)], [1], [2]] : List (List ℝ)).length)) ∧
    (∃ out, (get_LOF (fit ⟨none, none⟩ (PyInput.arr2d [[(0 : ℝ)], [1], [2]])).1 1
        [[1], [0], [1]]).2 = some out ∧
      out.length = ([[(0 : ℝ)], [1], [2]] : List (List ℝ)).length ∧
      ∀ i, i < ([[(0 : ℝ)], [1], [2]] : List (List ℝ)).length →
        (lof_pass2 (lof_neighbors [[(0 : ℝ)], [1], [2]] (1 : ℤ).toNat [[1], [0], [1]])
            (lof_distances [[(0 : ℝ)], [1], [2]] (1 : ℤ).toNat [[1], [0], [1]])
            ([[(0 : ℝ)], [1], [2]] : List (List ℝ)).length).getD i 0 =
          lrd_spec [[(0 : ℝ)], [1], [2]]
            (lof_neighbors [[(0 : ℝ)], [1], [2]] (1 : ℤ).toNat [[1], [0], [1]])
            (lof_distances [[(0 : ℝ)], [1], [2]] (1 : ℤ).toNat [[1], [0], [1]]) i ∧
        out.getD i 0 =
          (((lof_neighbors [[(0 : ℝ)], [1], [2]] (1 : ℤ).toNat [[1], [0], [1]]).getD i []).map
            (fun j => lrd_spec [[(0 : ℝ)], [1], [2]]
              (lof_neighbors [[(0 : ℝ)], [1], [2]] (1 : ℤ).toNat [[1], [0], [1]])
              (lof_distances [[(0 : ℝ)], [1], [2]] (1 : ℤ).toNat [[1], [0], [1]]) j)).sum /
          (lrd_spec [[(0 : ℝ)], [1], [2]]
            (lof_neighbors [[(0 : ℝ)], [1], [2]] (1 : ℤ).toNat [[1], [0], [1]])
            (lof_distances [[(0 : ℝ)], [1], [2]] (1 : ℤ).toNat [[1], [0], [1]]) i *
            (((lof_neighbors [[(0 : ℝ)], [1], [2]] (1 : ℤ).toNat
              [[1], [0], [1]]).getD i []).length : ℝ))) :=
  ⟨⟨by simp, by simp, by decide, by simp, by decide, by decide⟩,
   C4_get_LOF_formulas [[(0 : ℝ)], [1], [2]] 1 [[1], [0], [1]] (by simp) (by simp)
     (by decide) (by simp) (by decide) (by decide)⟩

end ClaimC4

section ClaimC10

/-- The rows stored across all leaves of a ball, left to right. -/
def Ball.leafRows {α : Type} : Ball α → List (List α)
  | .NodeBall _ _ l r => l.leafRows ++ r.leafRows
  | .LeafBall _ _ data _ => data

/-- The left subtree of the counterexample tree: two far-away points whose
leaves both carry the scalar center -60, at proxy distance 290 from the
query [140, 150]. -/
def exampleTree_A : Ball ℝ :=
  .NodeBall 110 100 (.LeafBall (-60) 0 [[-60, 10]] [0]) (.LeafBall (-60) 0 [[-60, 210]] [1])

/-- The right subtree of the counterexample tree: scalar summary center 150,
radius 50, so the query [140, 150] lies well inside it (signed proxy
distance sqrt(100) - 50 = -40); it holds the row [140, 152] at squared
distance 4 from the query. -/
def exampleTree_B : Ball ℝ :=
  .NodeBall 150 50 (.LeafBall 100 0 [[100, 150]] [2])
    (.NodeBall 170 30 (.LeafBall 140 0 [[140, 152]] [3]) (.LeafBall 200 0 [[200, 150]] [4]))

/-- The counterexample tree. -/
def exampleTree : Ball ℝ := .NodeBall 0 0 exampleTree_A exampleTree_B

/-- A heap state for k = 1 mid-search: one stored candidate (index 99) at
squared distance 9. -/
noncomputable def examplePQ : MaxPQ ℝ := ⟨1, 2, [none, some 9, none], [none, some 99, none]⟩

theorem examplePQ_top : examplePQ.top_valueD = 9 := rfl

theorem find_NN_example_eval :
    find_NN [140, 150] 1 exampleTree examplePQ none = examplePQ := by
  have hb110 : dist_squared_bcast ([140, 150] : List ℝ) 110 = 2500 := by
    norm_num [dist_squared_bcast]
  have hb150 : dist_squared_bcast ([140, 150] : List ℝ) 150 = 100 := by
    norm_num [dist_squared_bcast]
  have hbm60 : dist_squared_bcast ([140, 150] : List ℝ) (-60) = 84100 := by
    norm_num [dist_squared_bcast]
  have hs2500 : Real.sqrt 2500 = 50 := by
    rw [show (2500 : ℝ) = 50 ^ 2 by norm_num, Real.sqrt_sq (by norm_num)]
  have hs100 : Real.sqrt 100 = 10 := by
    rw [show (100 : ℝ) = 10 ^ 2 by norm_num, Real.sqrt_sq (by norm_num)]
  have hs84100 : Real.sqrt 84100 = 290 := by
    rw [show (84100 : ℝ) = 290 ^ 2 by norm_num, Real.sqrt_sq (by norm_num)]
  have hd1 : dist_squared ([140, 150] : List ℝ) [-60, 210] = 43600 := by
    norm_num [dist_squared]
  rw [exampleTree, exampleTree_A, exampleTree_B]
  simp only [find_NN, Ball.center, Ball.radius, List.zip_cons_cons, List.zip_nil_left,
    List.zip_nil_right, List.foldl_cons, List.foldl_nil, processPoint, hb110, hb150, hbm60,
    hs2500, hs100, hs84100, hd1, examplePQ_top]
  norm_num [examplePQ_top]

theorem processPoint_example :
    processPoint 1 [140, 150] none examplePQ (3, [140, 152]) =
      examplePQ.replace_top (dist_squared [140, 150] [140, 152]) 3 := by
  have hd2 : dist_squared ([140, 150] : List ℝ) [140, 152] = 4 := by
    norm_num [dist_squared]
  simp only [processPoint, hd2, examplePQ_top]
  rw [if_neg (by norm_num : ¬((4 : ℝ) > 9))]
  rw [if_pos ⟨by simp, by simp [examplePQ]⟩]
  have hsl : shrink_loop 1 4 examplePQ = examplePQ := by
    rw [shrink_loop, dif_neg]
    simp [examplePQ]
  rw [hsl]
  rw [if_pos (by rw [examplePQ_top]; norm_num : (4 : ℝ) < examplePQ.top_valueD)]

/-- C10: the pruning test in find_NN squares the signed proxy distance
before comparing it with the heap top, so a child whose proxy distance is
negative — the query lies inside the child's scalar ball summary — is
pruned whenever that square exceeds the top value.  On this concrete tree
and queue (capacity 2, one candidate at squared distance 9) the right
child's proxy distance is negative, its square 1600 exceeds the top value 9,
the child stores the row [140, 152] at squared distance 4 < 9 from the
query — processing that row would replace the heap top — and yet find_NN
returns the queue unchanged, never visiting the child. -/
theorem C10_signed_proxy_prune_misses_closer_point :
    Real.sqrt (dist_squared_bcast [140, 150] (Ball.center exampleTree_B)) -
      Ball.radius exampleTree_B < 0 ∧
    (Real.sqrt (dist_squared_bcast [140, 150] (Ball.center exampleTree_B)) -
      Ball.radius exampleTree_B) ^ 2 > examplePQ.top_valueD ∧
    [140, 152] ∈ Ball.leafRows exampleTree_B ∧
    dist_squared ([140, 150] : List ℝ) [140, 152] < examplePQ.top_valueD ∧
    processPoint 1 [140, 150] none examplePQ (3, [140, 152]) =
      examplePQ.replace_top (dist_squared [140, 150] [140, 152]) 3 ∧
    find_NN [140, 150] 1 exampleTree examplePQ none = examplePQ := by
  have hb150 : dist_squared_bcast ([140, 150] : List ℝ) 150 = 100 := by
    norm_num [dist_squared_bcast]
  have hs100 : Real.sqrt 100 = 10 := by
    rw [show (100 : ℝ) = 10 ^ 2 by norm_num, Real.sqrt_sq (by norm_num)]
  refine ⟨?_, ?_, ?_, ?_, processPoint_example, find_NN_example_eval⟩
  · rw [exampleTree_B]
    simp only [Ball.center, Ball.radius]
    rw [hb150, hs100]
    norm_num
  · rw [exampleTree_B]
    simp only [Ball.center, Ball.radius]
    rw [hb150, hs100, examplePQ_top]
    norm_num
  · rw [exampleTree_B]
    simp [Ball.leafRows]
  · rw [examplePQ_top]
    norm_num [dist_squared]

end ClaimC10

end Outliers
